import Mathlib

/-
Verification development for the prologium lexer and parser (src/main.rs).

The Rust source is embedded shallowly:
* the character stream is a `List Char` (the remaining input; the Rust code
  keeps a `pos` index into the full string, which is equivalent),
* the lexer state is the remaining input plus the one-token lookahead buffer
  `next_token`,
* every `panic!` in the source becomes a typed error propagated through
  `Except`, so that claims about which inputs fail and how can be stated,
* the parser functions take and return the lexer state explicitly.
-/

namespace Prologium

/-- Character class of the Rust range pattern for lowercase letters. -/
def isLowerAZ (c : Char) : Bool := decide ('a' ≤ c ∧ c ≤ 'z')

/-- Character class of the Rust range pattern for uppercase letters. -/
def isUpperAZ (c : Char) : Bool := decide ('A' ≤ c ∧ c ≤ 'Z')

/-- Character class of the Rust range pattern for decimal digits. -/
def isDigit09 (c : Char) : Bool := decide ('0' ≤ c ∧ c ≤ '9')

/-- Characters allowed after the first character of an atom token,
the Rust pattern for lowercase letters or digits. -/
def isAtomChar (c : Char) : Bool := isLowerAZ c || isDigit09 c

/-- Tokens produced by the lexer (`enum Token` in the source).
The source constructor named for variables is a Lean keyword,
so it is called `var` here. -/
inductive Token where
  | atom (s : String)
  | var (s : String)
  | op (s : String)
deriving DecidableEq

/-- Lexical failures: the two `panic!` sites of `pop_token_internal`. -/
inductive LexError where
  | unexpectedChar (c : Char)
  | expectedDash
deriving DecidableEq

/-- Parser failures: the `panic!` sites of `parse_term`, `expect`
and `parse_clause`. -/
inductive ParseError where
  | expectedTerm (found : Option Token)
  | expectedToken (t : Token)
  | expectedPredicate (found : Option Token)
deriving DecidableEq

/-- Any failure of the lexing or parsing pipeline. -/
inductive Err where
  | lex (e : LexError)
  | parse (e : ParseError)
deriving DecidableEq

/-- The skipping loop of `pop_token_internal`: the whitespace arm and the
comment arm of the outer `loop` fused into one structural pass.  The flag
records whether we are inside a `%` comment (the inner `loop` of the
source, which pops characters until it pops a newline or hits the end). -/
def skipJunkAux : Bool → List Char → List Char
  | _, [] => []
  | true, c :: cs => if c == '\n' then skipJunkAux false cs else skipJunkAux true cs
  | false, c :: cs =>
    if c == '\n' || c == ' ' then skipJunkAux false cs
    else if c == '%' then skipJunkAux true cs
    else c :: cs

/-- Remaining input after the whitespace-and-comment skipping loop. -/
def skipJunk (l : List Char) : List Char := skipJunkAux false l

/-- Token classification of `pop_token_internal` after the skipping loop:
classify the next character and take the maximal munch of its token class.
Returns the token (or `none` at end of input) and the remaining input. -/
def popTokenAt : List Char → Except Err (Option Token × List Char)
  | [] => .ok (none, [])
  | c :: cs =>
    if isLowerAZ c then
      .ok (some (.atom ⟨List.takeWhile isAtomChar (c :: cs)⟩),
           List.dropWhile isAtomChar (c :: cs))
    else if isUpperAZ c then
      .ok (some (.var ⟨c :: List.takeWhile isLowerAZ cs⟩),
           List.dropWhile isLowerAZ cs)
    else if c == '(' || c == ')' || c == ',' || c == '.' then
      .ok (some (.op ⟨[c]⟩), cs)
    else if c == ':' then
      match cs with
      | '-' :: cs' => .ok (some (.op (":-")), cs')
      | _ => .error (.lex .expectedDash)
    else .error (.lex (.unexpectedChar c))

/-- `Lexer::pop_token_internal`: skip whitespace and comments, then produce
the next token. -/
def popTokenInternal (l : List Char) : Except Err (Option Token × List Char) :=
  popTokenAt (skipJunk l)

/-- The lexer state: remaining input characters and the one-token
lookahead buffer (`next_token` in the source). -/
structure Lexer where
  input : List Char
  next_token : Option Token
deriving DecidableEq

/-- A lexer freshly constructed from an input string (`Lexer::new`). -/
def Lexer.new (s : String) : Lexer := ⟨s.data, none⟩

/-- Fill the lookahead buffer if it is empty; shared prelude of
`peek_token` and `pop_token`. -/
def Lexer.fill (l : Lexer) : Except Err Lexer :=
  match l.next_token with
  | some _ => .ok l
  | none =>
    match popTokenInternal l.input with
    | .error e => .error e
    | .ok (t, rest) => .ok ⟨rest, t⟩

/-- `Lexer::peek_token` (the diagnostic print is ignored). -/
def Lexer.peek_token (l : Lexer) : Except Err (Option Token × Lexer) :=
  match l.fill with
  | .error e => .error e
  | .ok l' => .ok (l'.next_token, l')

/-- `Lexer::pop_token` (the diagnostic print is ignored). -/
def Lexer.pop_token (l : Lexer) : Except Err (Option Token × Lexer) :=
  match l.fill with
  | .error e => .error e
  | .ok l' => .ok (l'.next_token, { l' with next_token := none })

/-- `Lexer::consume`: consume the lookahead exactly when it equals the
expected token, reporting whether it did. -/
def Lexer.consume (l : Lexer) (t : Token) : Except Err (Bool × Lexer) :=
  match l.fill with
  | .error e => .error e
  | .ok l' =>
    if l'.next_token = some t then .ok (true, { l' with next_token := none })
    else .ok (false, l')

/-- `Lexer::expect`: like `consume` but a mismatch is fatal
(`panic!("Expected {:?}", token)` in the source). -/
def Lexer.expect (l : Lexer) (t : Token) : Except Err Lexer :=
  match l.fill with
  | .error e => .error e
  | .ok l' =>
    if l'.next_token = some t then .ok { l' with next_token := none }
    else .error (.parse (.expectedToken t))

/-- Termination measure for the parsing loops: how much a lexer state can
still produce.  Every buffered token counts one, every input character two,
so that both filling the buffer and taking a buffered token decrease it. -/
def lexSize (l : Lexer) : Nat :=
  2 * l.input.length + match l.next_token with | some _ => 1 | none => 0

theorem length_dropWhile_le (p : α → Bool) (l : List α) :
    (l.dropWhile p).length ≤ l.length := by
  induction l with
  | nil => simp [List.dropWhile]
  | cons a l ih =>
    rw [List.dropWhile_cons]
    cases hp : p a
    · simp
    · simpa using Nat.le_succ_of_le ih

theorem skipJunkAux_length_le (b : Bool) (l : List Char) :
    (skipJunkAux b l).length ≤ l.length := by
  induction l generalizing b with
  | nil => simp [skipJunkAux]
  | cons c cs ih =>
    cases b with
    | true =>
      simp only [skipJunkAux]
      split
      · exact le_trans (ih false) (by simp)
      · exact le_trans (ih true) (by simp)
    | false =>
      simp only [skipJunkAux]
      split
      · exact le_trans (ih false) (by simp)
      · split
        · exact le_trans (ih true) (by simp)
        · simp

theorem skipJunk_length_le (l : List Char) : (skipJunk l).length ≤ l.length :=
  skipJunkAux_length_le false l

/-- The skipping loop stops only at a character that is not whitespace
and not a comment opener. -/
theorem skipJunkAux_head_not_junk (b : Bool) (l : List Char) (c : Char)
    (cs : List Char) (h : skipJunkAux b l = c :: cs) :
    c ≠ '\n' ∧ c ≠ ' ' ∧ c ≠ '%' := by
  induction l generalizing b with
  | nil => simp [skipJunkAux] at h
  | cons d ds ih =>
    cases b with
    | true =>
      simp only [skipJunkAux] at h
      split at h
      · exact ih false h
      · exact ih true h
    | false =>
      simp only [skipJunkAux] at h
      split at h
      · exact ih false h
      · split at h
        · exact ih true h
        · rename_i h₁ h₂
          cases h
          simp only [Bool.or_eq_true, beq_iff_eq, not_or] at h₁
          simp only [beq_iff_eq] at h₂
          exact ⟨h₁.1, h₁.2, h₂⟩

theorem skipJunk_head_not_junk (l : List Char) (c : Char) (cs : List Char)
    (h : skipJunk l = c :: cs) : c ≠ '\n' ∧ c ≠ ' ' ∧ c ≠ '%' :=
  skipJunkAux_head_not_junk false l c cs h

/-- Classifying a nonempty input consumes at least one character. -/
theorem popTokenAt_some_le (c : Char) (cs : List Char) (t : Token)
    (r : List Char) (h : popTokenAt (c :: cs) = .ok (some t, r)) :
    r.length ≤ cs.length := by
  simp only [popTokenAt] at h
  split at h
  · rename_i hc
    simp only [Except.ok.injEq, Prod.mk.injEq] at h
    obtain ⟨-, hr⟩ := h
    subst hr
    rw [List.dropWhile_cons_of_pos (by simp [isAtomChar, hc])]
    exact length_dropWhile_le _ _
  · split at h
    · simp only [Except.ok.injEq, Prod.mk.injEq] at h
      obtain ⟨-, hr⟩ := h
      subst hr
      exact length_dropWhile_le _ _
    · split at h
      · simp only [Except.ok.injEq, Prod.mk.injEq] at h
        obtain ⟨-, hr⟩ := h
        subst hr
        exact le_refl _
      · split at h
        · split at h
          · simp only [Except.ok.injEq, Prod.mk.injEq] at h
            obtain ⟨-, hr⟩ := h
            subst hr
            simp
          · exact absurd h (by simp)
        · exact absurd h (by simp)

/-- Classification returns no token only on empty input, with an empty
remainder. -/
theorem popTokenAt_none (l : List Char) (r : List Char)
    (h : popTokenAt l = .ok (none, r)) : r = [] := by
  cases l with
  | nil => simp only [popTokenAt, Except.ok.injEq, Prod.mk.injEq] at h; exact h.2.symm
  | cons c cs =>
    simp only [popTokenAt] at h
    split at h
    · exact absurd h (by simp)
    · split at h
      · exact absurd h (by simp)
      · split at h
        · exact absurd h (by simp)
        · split at h
          · split at h
            · exact absurd h (by simp)
            · exact absurd h (by simp)
          · exact absurd h (by simp)

/-- Producing a token consumes at least one input character. -/
theorem popTokenInternal_some_length_lt (l : List Char) (t : Token)
    (r : List Char) (h : popTokenInternal l = .ok (some t, r)) :
    r.length < l.length := by
  unfold popTokenInternal at h
  cases hsk : skipJunk l with
  | nil => rw [hsk] at h; exact absurd h (by simp [popTokenAt])
  | cons c cs =>
    rw [hsk] at h
    have h₁ : r.length ≤ cs.length := popTokenAt_some_le c cs t r h
    have h₂ : cs.length + 1 ≤ l.length := by
      have := skipJunk_length_le l
      rw [hsk] at this
      simpa using this
    omega

/-- At end of input the remainder returned is empty. -/
theorem popTokenInternal_none (l : List Char) (r : List Char)
    (h : popTokenInternal l = .ok (none, r)) : r = [] := by
  unfold popTokenInternal at h
  exact popTokenAt_none _ _ h

theorem lexSize_clear_le (l : Lexer) :
    lexSize { l with next_token := none } ≤ lexSize l := by
  simp only [lexSize]
  cases l.next_token
  · simp
  · simp

theorem lexSize_clear_lt (l : Lexer) (t : Token) (h : l.next_token = some t) :
    lexSize { l with next_token := none } < lexSize l := by
  simp [lexSize, h]

theorem fill_size_le (l l' : Lexer) (h : l.fill = .ok l') :
    lexSize l' ≤ lexSize l := by
  unfold Lexer.fill at h
  cases hn : l.next_token with
  | some t => rw [hn] at h; cases h; exact le_refl _
  | none =>
    rw [hn] at h
    cases hp : popTokenInternal l.input with
    | error e => rw [hp] at h; exact absurd h (by simp)
    | ok p =>
      obtain ⟨t, rest⟩ := p
      rw [hp] at h
      cases h
      cases t with
      | none =>
        have hr : rest = [] := popTokenInternal_none _ _ hp
        simp [lexSize, hn, hr]
      | some tok =>
        have hr : rest.length < l.input.length :=
          popTokenInternal_some_length_lt _ _ _ hp
        simp only [lexSize, hn]
        omega

theorem fill_ok_of_next_some (l l' : Lexer) (t : Token)
    (hn : l.next_token = some t) (h : l.fill = .ok l') : l' = l := by
  unfold Lexer.fill at h
  rw [hn] at h
  cases h
  rfl

theorem peek_token_size_le (l : Lexer) (x : Option Token) (l' : Lexer)
    (h : l.peek_token = .ok (x, l')) : lexSize l' ≤ lexSize l := by
  unfold Lexer.peek_token at h
  cases hf : l.fill with
  | error e => rw [hf] at h; exact absurd h (by simp)
  | ok lf =>
    rw [hf] at h
    cases h
    exact fill_size_le _ _ hf

theorem pop_token_size_le (l : Lexer) (x : Option Token) (l' : Lexer)
    (h : l.pop_token = .ok (x, l')) : lexSize l' ≤ lexSize l := by
  unfold Lexer.pop_token at h
  cases hf : l.fill with
  | error e => rw [hf] at h; exact absurd h (by simp)
  | ok lf =>
    rw [hf] at h
    cases h
    exact le_trans (lexSize_clear_le lf) (fill_size_le _ _ hf)

theorem pop_token_some_size_lt (l : Lexer) (t : Token) (l' : Lexer)
    (h : l.pop_token = .ok (some t, l')) : lexSize l' < lexSize l := by
  unfold Lexer.pop_token at h
  cases hf : l.fill with
  | error e => rw [hf] at h; exact absurd h (by simp)
  | ok lf =>
    rw [hf] at h
    simp only [Except.ok.injEq, Prod.mk.injEq] at h
    obtain ⟨ht, hl⟩ := h
    subst hl
    exact lt_of_lt_of_le (lexSize_clear_lt lf t ht) (fill_size_le _ _ hf)

theorem consume_size_le (l : Lexer) (t : Token) (b : Bool) (l' : Lexer)
    (h : l.consume t = .ok (b, l')) : lexSize l' ≤ lexSize l := by
  unfold Lexer.consume at h
  cases hf : l.fill with
  | error e => rw [hf] at h; exact absurd h (by simp)
  | ok lf =>
    rw [hf] at h
    dsimp only at h
    by_cases hnt : lf.next_token = some t
    · rw [if_pos hnt] at h
      simp only [Except.ok.injEq, Prod.mk.injEq] at h
      obtain ⟨-, hl⟩ := h
      subst hl
      exact le_trans (lexSize_clear_le lf) (fill_size_le _ _ hf)
    · rw [if_neg hnt] at h
      simp only [Except.ok.injEq, Prod.mk.injEq] at h
      obtain ⟨-, hl⟩ := h
      subst hl
      exact fill_size_le _ _ hf

theorem consume_true_size_lt (l : Lexer) (t : Token) (l' : Lexer)
    (h : l.consume t = .ok (true, l')) : lexSize l' < lexSize l := by
  unfold Lexer.consume at h
  cases hf : l.fill with
  | error e => rw [hf] at h; exact absurd h (by simp)
  | ok lf =>
    rw [hf] at h
    dsimp only at h
    by_cases hnt : lf.next_token = some t
    · rw [if_pos hnt] at h
      simp only [Except.ok.injEq, Prod.mk.injEq] at h
      obtain ⟨-, hl⟩ := h
      subst hl
      exact lt_of_lt_of_le (lexSize_clear_lt lf t hnt) (fill_size_le _ _ hf)
    · rw [if_neg hnt] at h
      exact absurd h (by simp)

theorem expect_size_lt (l : Lexer) (t : Token) (l' : Lexer)
    (h : l.expect t = .ok l') : lexSize l' < lexSize l := by
  unfold Lexer.expect at h
  cases hf : l.fill with
  | error e => rw [hf] at h; exact absurd h (by simp)
  | ok lf =>
    rw [hf] at h
    dsimp only at h
    by_cases hnt : lf.next_token = some t
    · rw [if_pos hnt] at h
      cases h
      exact lt_of_lt_of_le (lexSize_clear_lt lf t hnt) (fill_size_le _ _ hf)
    · rw [if_neg hnt] at h
      exact absurd h (by simp)

/-- The immutable AST (`enum Node` in the source).  The source constructors
named for variables and for the truth sentinel are Lean keywords, so they
are called `var` and `tru` here.  The `Rc` sharing of sub-terms has no
observable effect on the values, so nodes are plain values. -/
inductive Node where
  | atom (s : String)
  | var (s : String)
  | predicate (name : String) (args : List Node)
  | clause (left : Node) (right : List Node)
  | tru

/-- `Parser::parse_atom`: a non-consuming probe, consuming only when the
lookahead is an atom token. -/
def parse_atom (st : Lexer) : Except Err (Option Node × Lexer) :=
  match st.peek_token with
  | .error e => .error e
  | .ok (some (.atom s), st₁) =>
    match st₁.pop_token with
    | .error e => .error e
    | .ok (_, st₂) => .ok (some (.atom s), st₂)
  | .ok (_, st₁) => .ok (none, st₁)

/-- `Parser::parse_term`: pops the next token unconditionally; anything but
an atom or a variable is fatal. -/
def parse_term (st : Lexer) : Except Err (Option Node × Lexer) :=
  match st.pop_token with
  | .error e => .error e
  | .ok (some (.atom s), st₁) => .ok (some (.atom s), st₁)
  | .ok (some (.var s), st₁) => .ok (some (.var s), st₁)
  | .ok (t, _) => .error (.parse (.expectedTerm t))

theorem parse_atom_size_le (st : Lexer) (x : Option Node) (st' : Lexer)
    (h : parse_atom st = .ok (x, st')) : lexSize st' ≤ lexSize st := by
  unfold parse_atom at h
  split at h
  · exact absurd h (by simp)
  · rename_i s st₁ heq
    split at h
    · exact absurd h (by simp)
    · rename_i u st₂ heq₂
      cases h
      exact le_trans (pop_token_size_le _ _ _ heq₂) (peek_token_size_le _ _ _ heq)
  · rename_i t st₁ hne heq
    cases h
    exact peek_token_size_le _ _ _ heq

theorem parse_term_size_le (st : Lexer) (x : Option Node) (st' : Lexer)
    (h : parse_term st = .ok (x, st')) : lexSize st' ≤ lexSize st := by
  unfold parse_term at h
  split at h
  · exact absurd h (by simp)
  · rename_i s st₁ heq
    cases h
    exact pop_token_size_le _ _ _ heq
  · rename_i s st₁ heq
    cases h
    exact pop_token_size_le _ _ _ heq
  · exact absurd h (by simp)

/-- The accumulation loop of `Parser::parse_term_list`: greedily consume a
comma and parse one more term. -/
def parse_term_list_loop (acc : List Node) (st : Lexer) :
    Except Err (Option (List Node) × Lexer) :=
  match h₁ : st.consume (.op (",")) with
  | .error e => .error e
  | .ok (false, st₁) => .ok (some acc, st₁)
  | .ok (true, st₁) =>
    match h₂ : parse_term st₁ with
    | .error e => .error e
    | .ok (none, st₂) => .ok (none, st₂)
    | .ok (some p, st₂) => parse_term_list_loop (acc ++ [p]) st₂
termination_by lexSize st
decreasing_by
  exact lt_of_le_of_lt (parse_term_size_le _ _ _ h₂) (consume_true_size_lt _ _ _ h₁)

/-- `Parser::parse_term_list`: one term, then the comma loop. -/
def parse_term_list (st : Lexer) : Except Err (Option (List Node) × Lexer) :=
  match parse_term st with
  | .error e => .error e
  | .ok (none, st₁) => .ok (none, st₁)
  | .ok (some p, st₁) => parse_term_list_loop [p] st₁

theorem parse_term_list_loop_size_le (acc : List Node) (st : Lexer)
    (x : Option (List Node)) (st' : Lexer)
    (h : parse_term_list_loop acc st = .ok (x, st')) :
    lexSize st' ≤ lexSize st := by
  induction acc, st using parse_term_list_loop.induct with
  | case1 acc st e h₁ =>
    rw [parse_term_list_loop, h₁] at h
    exact absurd h (by simp)
  | case2 acc st st₁ h₁ =>
    rw [parse_term_list_loop, h₁] at h
    dsimp only at h
    cases h
    exact consume_size_le _ _ _ _ h₁
  | case3 acc st st₁ h₁ e h₂ =>
    rw [parse_term_list_loop, h₁] at h
    dsimp only at h
    rw [h₂] at h
    exact absurd h (by simp)
  | case4 acc st st₁ h₁ st₂ h₂ =>
    rw [parse_term_list_loop, h₁] at h
    dsimp only at h
    rw [h₂] at h
    dsimp only at h
    cases h
    exact le_trans (parse_term_size_le _ _ _ h₂) (consume_size_le _ _ _ _ h₁)
  | case5 acc st st₁ h₁ p st₂ h₂ ih =>
    rw [parse_term_list_loop, h₁] at h
    dsimp only at h
    rw [h₂] at h
    dsimp only at h
    exact le_trans (ih h)
      (le_trans (parse_term_size_le _ _ _ h₂) (consume_size_le _ _ _ _ h₁))

theorem parse_term_list_size_le (st : Lexer) (x : Option (List Node))
    (st' : Lexer) (h : parse_term_list st = .ok (x, st')) :
    lexSize st' ≤ lexSize st := by
  unfold parse_term_list at h
  split at h
  · exact absurd h (by simp)
  · rename_i st₁ heq
    cases h
    exact parse_term_size_le _ _ _ heq
  · rename_i p st₁ heq
    exact le_trans (parse_term_list_loop_size_le _ _ _ _ h)
      (parse_term_size_le _ _ _ heq)

/-- `Parser::parse_predicate`: an atom name, then an optional parenthesized
non-empty term list. -/
def parse_predicate (st : Lexer) : Except Err (Option Node × Lexer) :=
  match parse_atom st with
  | .error e => .error e
  | .ok (none, st₁) => .ok (none, st₁)
  | .ok (some (.atom name), st₁) =>
    match st₁.consume (.op ("(")) with
    | .error e => .error e
    | .ok (false, st₂) => .ok (some (.predicate name []), st₂)
    | .ok (true, st₂) =>
      match parse_term_list st₂ with
      | .error e => .error e
      | .ok (none, st₃) => .ok (none, st₃)
      | .ok (some args, st₃) =>
        match st₃.expect (.op (")")) with
        | .error e => .error e
        | .ok st₄ => .ok (some (.predicate name args), st₄)
  | .ok (some _, st₁) => .ok (none, st₁)

theorem parse_predicate_size_le (st : Lexer) (x : Option Node) (st' : Lexer)
    (h : parse_predicate st = .ok (x, st')) : lexSize st' ≤ lexSize st := by
  unfold parse_predicate at h
  split at h
  · exact absurd h (by simp)
  · rename_i st₁ heq
    cases h
    exact parse_atom_size_le _ _ _ heq
  · rename_i name st₁ heq
    split at h
    · exact absurd h (by simp)
    · rename_i st₂ heq₂
      cases h
      exact le_trans (consume_size_le _ _ _ _ heq₂) (parse_atom_size_le _ _ _ heq)
    · rename_i st₂ heq₂
      split at h
      · exact absurd h (by simp)
      · rename_i st₃ heq₃
        cases h
        exact le_trans (parse_term_list_size_le _ _ _ heq₃)
          (le_trans (consume_size_le _ _ _ _ heq₂) (parse_atom_size_le _ _ _ heq))
      · rename_i args st₃ heq₃
        split at h
        · exact absurd h (by simp)
        · rename_i st₄ heq₄
          cases h
          exact le_trans (le_of_lt (expect_size_lt _ _ _ heq₄))
            (le_trans (parse_term_list_size_le _ _ _ heq₃)
              (le_trans (consume_size_le _ _ _ _ heq₂)
                (parse_atom_size_le _ _ _ heq)))
  · rename_i n st₁ hne heq
    cases h
    exact parse_atom_size_le _ _ _ heq

/-- The accumulation loop of `Parser::parse_predicate_list`: greedily
consume a comma and parse one more predicate. -/
def parse_predicate_list_loop (acc : List Node) (st : Lexer) :
    Except Err (Option (List Node) × Lexer) :=
  match h₁ : st.consume (.op (",")) with
  | .error e => .error e
  | .ok (false, st₁) => .ok (some acc, st₁)
  | .ok (true, st₁) =>
    match h₂ : parse_predicate st₁ with
    | .error e => .error e
    | .ok (none, st₂) => .ok (none, st₂)
    | .ok (some p, st₂) => parse_predicate_list_loop (acc ++ [p]) st₂
termination_by lexSize st
decreasing_by
  exact lt_of_le_of_lt (parse_predicate_size_le _ _ _ h₂) (consume_true_size_lt _ _ _ h₁)

/-- `Parser::parse_predicate_list`: one predicate, then the comma loop. -/
def parse_predicate_list (st : Lexer) : Except Err (Option (List Node) × Lexer) :=
  match parse_predicate st with
  | .error e => .error e
  | .ok (none, st₁) => .ok (none, st₁)
  | .ok (some p, st₁) => parse_predicate_list_loop [p] st₁

theorem parse_predicate_list_loop_size_le (acc : List Node) (st : Lexer)
    (x : Option (List Node)) (st' : Lexer)
    (h : parse_predicate_list_loop acc st = .ok (x, st')) :
    lexSize st' ≤ lexSize st := by
  induction acc, st using parse_predicate_list_loop.induct with
  | case1 acc st e h₁ =>
    rw [parse_predicate_list_loop, h₁] at h
    exact absurd h (by simp)
  | case2 acc st st₁ h₁ =>
    rw [parse_predicate_list_loop, h₁] at h
    dsimp only at h
    cases h
    exact consume_size_le _ _ _ _ h₁
  | case3 acc st st₁ h₁ e h₂ =>
    rw [parse_predicate_list_loop, h₁] at h
    dsimp only at h
    rw [h₂] at h
    exact absurd h (by simp)
  | case4 acc st st₁ h₁ st₂ h₂ =>
    rw [parse_predicate_list_loop, h₁] at h
    dsimp only at h
    rw [h₂] at h
    dsimp only at h
    cases h
    exact le_trans (parse_predicate_size_le _ _ _ h₂) (consume_size_le _ _ _ _ h₁)
  | case5 acc st st₁ h₁ p st₂ h₂ ih =>
    rw [parse_predicate_list_loop, h₁] at h
    dsimp only at h
    rw [h₂] at h
    dsimp only at h
    exact le_trans (ih h)
      (le_trans (parse_predicate_size_le _ _ _ h₂) (consume_size_le _ _ _ _ h₁))

theorem parse_predicate_list_size_le (st : Lexer) (x : Option (List Node))
    (st' : Lexer) (h : parse_predicate_list st = .ok (x, st')) :
    lexSize st' ≤ lexSize st := by
  unfold parse_predicate_list at h
  split at h
  · exact absurd h (by simp)
  · rename_i st₁ heq
    cases h
    exact parse_predicate_size_le _ _ _ heq
  · rename_i p st₁ heq
    exact le_trans (parse_predicate_list_loop_size_le _ _ _ _ h)
      (parse_predicate_size_le _ _ _ heq)

/-- `Parser::parse_clause`: a head predicate, an optional `:-` body
(which must then be a non-empty predicate list), and the `.` terminator.
When no head parses this is "no match" (end of program), not an error;
a `:-` with no parseable body predicate is fatal
(`panic!("Expected predicate but got {:?}", peek_token)`). -/
def parse_clause (st : Lexer) : Except Err (Option Node × Lexer) :=
  match parse_predicate st with
  | .error e => .error e
  | .ok (none, st₁) => .ok (none, st₁)
  | .ok (some left, st₁) =>
    match st₁.consume (.op (":-")) with
    | .error e => .error e
    | .ok (true, st₂) =>
      match parse_predicate_list st₂ with
      | .error e => .error e
      | .ok (some right, st₃) =>
        match st₃.expect (.op (".")) with
        | .error e => .error e
        | .ok st₄ => .ok (some (.clause left right), st₄)
      | .ok (none, st₃) =>
        match st₃.peek_token with
        | .error e => .error e
        | .ok (t, _) => .error (.parse (.expectedPredicate t))
    | .ok (false, st₂) =>
      match st₂.expect (.op (".")) with
      | .error e => .error e
      | .ok st₃ => .ok (some left, st₃)

theorem parse_clause_size_le (st : Lexer) (x : Option Node) (st' : Lexer)
    (h : parse_clause st = .ok (x, st')) : lexSize st' ≤ lexSize st := by
  unfold parse_clause at h
  split at h
  · exact absurd h (by simp)
  · rename_i st₁ heq
    cases h
    exact parse_predicate_size_le _ _ _ heq
  · rename_i left st₁ heq
    split at h
    · exact absurd h (by simp)
    · rename_i st₂ heq₂
      split at h
      · exact absurd h (by simp)
      · rename_i right st₃ heq₃
        split at h
        · exact absurd h (by simp)
        · rename_i st₄ heq₄
          cases h
          exact le_trans (le_of_lt (expect_size_lt _ _ _ heq₄))
            (le_trans (parse_predicate_list_size_le _ _ _ heq₃)
              (le_trans (consume_size_le _ _ _ _ heq₂)
                (parse_predicate_size_le _ _ _ heq)))
      · rename_i st₃ heq₃
        split at h
        · exact absurd h (by simp)
        · exact absurd h (by simp)
    · rename_i st₂ heq₂
      split at h
      · exact absurd h (by simp)
      · rename_i st₃ heq₃
        cases h
        exact le_trans (le_of_lt (expect_size_lt _ _ _ heq₃))
          (le_trans (consume_size_le _ _ _ _ heq₂)
            (parse_predicate_size_le _ _ _ heq))

theorem parse_clause_some_size_lt (st : Lexer) (n : Node) (st' : Lexer)
    (h : parse_clause st = .ok (some n, st')) : lexSize st' < lexSize st := by
  unfold parse_clause at h
  split at h
  · exact absurd h (by simp)
  · exact absurd h (by simp)
  · rename_i left st₁ heq
    split at h
    · exact absurd h (by simp)
    · rename_i st₂ heq₂
      split at h
      · exact absurd h (by simp)
      · rename_i right st₃ heq₃
        split at h
        · exact absurd h (by simp)
        · rename_i st₄ heq₄
          cases h
          exact lt_of_lt_of_le (expect_size_lt _ _ _ heq₄)
            (le_trans (parse_predicate_list_size_le _ _ _ heq₃)
              (le_trans (consume_size_le _ _ _ _ heq₂)
                (parse_predicate_size_le _ _ _ heq)))
      · rename_i st₃ heq₃
        split at h
        · exact absurd h (by simp)
        · exact absurd h (by simp)
    · rename_i st₂ heq₂
      split at h
      · exact absurd h (by simp)
      · rename_i st₃ heq₃
        cases h
        exact lt_of_lt_of_le (expect_size_lt _ _ _ heq₃)
          (le_trans (consume_size_le _ _ _ _ heq₂)
            (parse_predicate_size_le _ _ _ heq))

/-- `Parser::parse`: collect clauses in order until the first "no match". -/
def parse (st : Lexer) : Except Err (List Node) :=
  match h : parse_clause st with
  | .error e => .error e
  | .ok (none, _) => .ok []
  | .ok (some n, st₁) =>
    match parse st₁ with
    | .error e => .error e
    | .ok ns => .ok (n :: ns)
termination_by lexSize st
decreasing_by
  exact parse_clause_some_size_lt _ _ _ h

/-! ### Data-model invariants (spec section 3)

Wellformedness of the text carried by tokens and nodes, and the structural
invariants of clause nodes. -/

/-- Text of the shape `[a-z][a-z0-9]*`. -/
def good_atom_string (s : String) : Bool :=
  match s.data with
  | [] => false
  | c :: cs => isLowerAZ c && cs.all isAtomChar

/-- Text of the shape `[A-Z][a-z]*`. -/
def good_var_string (s : String) : Bool :=
  match s.data with
  | [] => false
  | c :: cs => isUpperAZ c && cs.all isLowerAZ

/-- Wellformed token text: atoms and variables carry text of their
regular shape; operator tokens are unconstrained here. -/
def goodToken : Token → Bool
  | .atom s => good_atom_string s
  | .var s => good_var_string s
  | .op _ => true

def isPredicateNode : Node → Bool
  | .predicate _ _ => true
  | _ => false

mutual

/-- The data-model invariant on a node: atom and predicate-name text is
non-empty and matches `[a-z][a-z0-9]*`, variable text is non-empty,
starts uppercase with lowercase remainder, clause heads are predicates
and clause bodies are non-empty. -/
def nodeInv : Node → Bool
  | .atom s => good_atom_string s
  | .var s => good_var_string s
  | .predicate name args => good_atom_string name && nodesInv args
  | .clause left right =>
    isPredicateNode left && nodeInv left && !right.isEmpty && nodesInv right
  | .tru => true

/-- The invariant on every node of a list. -/
def nodesInv : List Node → Bool
  | [] => true
  | n :: ns => nodeInv n && nodesInv ns

end

theorem all_takeWhile (p : α → Bool) (l : List α) :
    (l.takeWhile p).all p = true := by
  induction l with
  | nil => simp [List.takeWhile]
  | cons a l ih =>
    rw [List.takeWhile_cons]
    cases hp : p a
    · simp
    · simp [hp, ih]

/-- Every token classified out of the input has wellformed text. -/
theorem popTokenAt_good (l : List Char) (t : Token) (r : List Char)
    (h : popTokenAt l = .ok (some t, r)) : goodToken t = true := by
  cases l with
  | nil =>
    simp only [popTokenAt] at h
    exact absurd h (by simp)
  | cons c cs =>
    simp only [popTokenAt] at h
    split at h
    · rename_i hc
      simp only [Except.ok.injEq, Prod.mk.injEq, Option.some.injEq] at h
      obtain ⟨ht, -⟩ := h
      subst ht
      have hd : List.takeWhile isAtomChar (c :: cs)
          = c :: List.takeWhile isAtomChar cs := by
        rw [List.takeWhile_cons, if_pos (by simp [isAtomChar, hc])]
      simp only [goodToken, good_atom_string, hd]
      simp [hc, all_takeWhile]
    · split at h
      · rename_i hc
        simp only [Except.ok.injEq, Prod.mk.injEq, Option.some.injEq] at h
        obtain ⟨ht, -⟩ := h
        subst ht
        simp only [goodToken, good_var_string]
        simp [hc, all_takeWhile]
      · split at h
        · simp only [Except.ok.injEq, Prod.mk.injEq, Option.some.injEq] at h
          obtain ⟨ht, -⟩ := h
          subst ht
          simp [goodToken]
        · split at h
          · split at h
            · simp only [Except.ok.injEq, Prod.mk.injEq, Option.some.injEq] at h
              obtain ⟨ht, -⟩ := h
              subst ht
              simp [goodToken]
            · exact absurd h (by simp)
          · exact absurd h (by simp)

theorem popTokenInternal_good (l : List Char) (t : Token) (r : List Char)
    (h : popTokenInternal l = .ok (some t, r)) : goodToken t = true :=
  popTokenAt_good _ _ _ h

/-- A lexer state whose lookahead buffer, if full, holds a wellformed
token.  Freshly constructed lexers satisfy this trivially. -/
def GoodLexer (l : Lexer) : Prop :=
  ∀ t, l.next_token = some t → goodToken t = true

theorem goodLexer_new (s : String) : GoodLexer (Lexer.new s) := by
  intro t ht
  simp [Lexer.new] at ht

theorem goodLexer_clear (l : Lexer) : GoodLexer { l with next_token := none } := by
  intro t ht
  simp at ht

theorem fill_good (l l' : Lexer) (hg : GoodLexer l) (h : l.fill = .ok l') :
    GoodLexer l' := by
  unfold Lexer.fill at h
  cases hn : l.next_token with
  | some t => rw [hn] at h; cases h; exact hg
  | none =>
    rw [hn] at h
    cases hp : popTokenInternal l.input with
    | error e => rw [hp] at h; exact absurd h (by simp)
    | ok p =>
      obtain ⟨t, rest⟩ := p
      rw [hp] at h
      cases h
      intro u hu
      simp only at hu
      subst hu
      exact popTokenInternal_good _ _ _ hp

theorem peek_token_good (l : Lexer) (x : Option Token) (l' : Lexer)
    (hg : GoodLexer l) (h : l.peek_token = .ok (x, l')) :
    GoodLexer l' ∧ ∀ t, x = some t → goodToken t = true := by
  unfold Lexer.peek_token at h
  cases hf : l.fill with
  | error e => rw [hf] at h; exact absurd h (by simp)
  | ok lf =>
    rw [hf] at h
    cases h
    have := fill_good _ _ hg hf
    exact ⟨this, this⟩

theorem pop_token_good (l : Lexer) (x : Option Token) (l' : Lexer)
    (hg : GoodLexer l) (h : l.pop_token = .ok (x, l')) :
    GoodLexer l' ∧ ∀ t, x = some t → goodToken t = true := by
  unfold Lexer.pop_token at h
  cases hf : l.fill with
  | error e => rw [hf] at h; exact absurd h (by simp)
  | ok lf =>
    rw [hf] at h
    cases h
    exact ⟨goodLexer_clear _, fill_good _ _ hg hf⟩

theorem consume_good (l : Lexer) (t : Token) (b : Bool) (l' : Lexer)
    (hg : GoodLexer l) (h : l.consume t = .ok (b, l')) : GoodLexer l' := by
  unfold Lexer.consume at h
  cases hf : l.fill with
  | error e => rw [hf] at h; exact absurd h (by simp)
  | ok lf =>
    rw [hf] at h
    dsimp only at h
    by_cases hnt : lf.next_token = some t
    · rw [if_pos hnt] at h
      simp only [Except.ok.injEq, Prod.mk.injEq] at h
      obtain ⟨-, hl⟩ := h
      subst hl
      exact goodLexer_clear _
    · rw [if_neg hnt] at h
      simp only [Except.ok.injEq, Prod.mk.injEq] at h
      obtain ⟨-, hl⟩ := h
      subst hl
      exact fill_good _ _ hg hf

theorem expect_good (l : Lexer) (t : Token) (l' : Lexer)
    (hg : GoodLexer l) (h : l.expect t = .ok l') : GoodLexer l' := by
  unfold Lexer.expect at h
  cases hf : l.fill with
  | error e => rw [hf] at h; exact absurd h (by simp)
  | ok lf =>
    rw [hf] at h
    dsimp only at h
    by_cases hnt : lf.next_token = some t
    · rw [if_pos hnt] at h
      cases h
      exact goodLexer_clear _
    · rw [if_neg hnt] at h
      exact absurd h (by simp)

theorem nodesInv_append (l₁ l₂ : List Node) :
    nodesInv (l₁ ++ l₂) = (nodesInv l₁ && nodesInv l₂) := by
  induction l₁ with
  | nil => simp [nodesInv]
  | cons n ns ih => simp [nodesInv, ih, Bool.and_assoc]

theorem parse_atom_good (st : Lexer) (x : Option Node) (st' : Lexer)
    (hg : GoodLexer st) (h : parse_atom st = .ok (x, st')) :
    GoodLexer st' ∧ ∀ n, x = some n → nodeInv n = true := by
  unfold parse_atom at h
  split at h
  · exact absurd h (by simp)
  · rename_i s st₁ heq
    split at h
    · exact absurd h (by simp)
    · rename_i u st₂ heq₂
      cases h
      have hpk := peek_token_good _ _ _ hg heq
      refine ⟨(pop_token_good _ _ _ hpk.1 heq₂).1, ?_⟩
      intro n hn
      cases hn
      have := hpk.2 _ rfl
      simpa [goodToken, nodeInv] using this
  · rename_i t st₁ hne heq
    cases h
    exact ⟨(peek_token_good _ _ _ hg heq).1, by intro n hn; cases hn⟩

theorem parse_term_good (st : Lexer) (x : Option Node) (st' : Lexer)
    (hg : GoodLexer st) (h : parse_term st = .ok (x, st')) :
    GoodLexer st' ∧ ∀ n, x = some n → nodeInv n = true := by
  unfold parse_term at h
  split at h
  · exact absurd h (by simp)
  · rename_i s st₁ heq
    cases h
    have hpp := pop_token_good _ _ _ hg heq
    refine ⟨hpp.1, ?_⟩
    intro n hn
    cases hn
    simpa [goodToken, nodeInv] using hpp.2 _ rfl
  · rename_i s st₁ heq
    cases h
    have hpp := pop_token_good _ _ _ hg heq
    refine ⟨hpp.1, ?_⟩
    intro n hn
    cases hn
    simpa [goodToken, nodeInv] using hpp.2 _ rfl
  · exact absurd h (by simp)

theorem parse_term_list_loop_good (acc : List Node) (st : Lexer) :
    GoodLexer st → nodesInv acc = true →
    ∀ x st', parse_term_list_loop acc st = .ok (x, st') →
    GoodLexer st' ∧ ∀ args, x = some args → nodesInv args = true := by
  induction acc, st using parse_term_list_loop.induct with
  | case1 acc st e h₁ =>
    intro hg hacc x st' h
    rw [parse_term_list_loop, h₁] at h
    exact absurd h (by simp)
  | case2 acc st st₁ h₁ =>
    intro hg hacc x st' h
    rw [parse_term_list_loop, h₁] at h
    dsimp only at h
    cases h
    refine ⟨consume_good _ _ _ _ hg h₁, ?_⟩
    intro args hargs
    cases hargs
    exact hacc
  | case3 acc st st₁ h₁ e h₂ =>
    intro hg hacc x st' h
    rw [parse_term_list_loop, h₁] at h
    dsimp only at h
    rw [h₂] at h
    exact absurd h (by simp)
  | case4 acc st st₁ h₁ st₂ h₂ =>
    intro hg hacc x st' h
    rw [parse_term_list_loop, h₁] at h
    dsimp only at h
    rw [h₂] at h
    dsimp only at h
    cases h
    have hg₁ := consume_good _ _ _ _ hg h₁
    refine ⟨(parse_term_good _ _ _ hg₁ h₂).1, ?_⟩
    intro args hargs
    cases hargs
  | case5 acc st st₁ h₁ p st₂ h₂ ih =>
    intro hg hacc x st' h
    rw [parse_term_list_loop, h₁] at h
    dsimp only at h
    rw [h₂] at h
    dsimp only at h
    have hg₁ := consume_good _ _ _ _ hg h₁
    have hpt := parse_term_good _ _ _ hg₁ h₂
    have hacc' : nodesInv (acc ++ [p]) = true := by
      rw [nodesInv_append]
      simp [hacc, nodesInv, hpt.2 p rfl]
    exact ih hpt.1 hacc' x st' h

/-- The comma loop only ever extends its accumulator. -/
theorem parse_term_list_loop_extends (acc : List Node) (st : Lexer) :
    ∀ args st', parse_term_list_loop acc st = .ok (some args, st') →
    ∃ tail, args = acc ++ tail := by
  induction acc, st using parse_term_list_loop.induct with
  | case1 acc st e h₁ =>
    intro args st' h
    rw [parse_term_list_loop, h₁] at h
    exact absurd h (by simp)
  | case2 acc st st₁ h₁ =>
    intro args st' h
    rw [parse_term_list_loop, h₁] at h
    dsimp only at h
    cases h
    exact ⟨[], by simp⟩
  | case3 acc st st₁ h₁ e h₂ =>
    intro args st' h
    rw [parse_term_list_loop, h₁] at h
    dsimp only at h
    rw [h₂] at h
    exact absurd h (by simp)
  | case4 acc st st₁ h₁ st₂ h₂ =>
    intro args st' h
    rw [parse_term_list_loop, h₁] at h
    dsimp only at h
    rw [h₂] at h
    exact absurd h (by simp)
  | case5 acc st st₁ h₁ p st₂ h₂ ih =>
    intro args st' h
    rw [parse_term_list_loop, h₁] at h
    dsimp only at h
    rw [h₂] at h
    dsimp only at h
    obtain ⟨tail, ht⟩ := ih args st' h
    exact ⟨p :: tail, by simpa using ht⟩

theorem parse_term_list_good (st : Lexer) (x : Option (List Node)) (st' : Lexer)
    (hg : GoodLexer st) (h : parse_term_list st = .ok (x, st')) :
    GoodLexer st' ∧ ∀ args, x = some args →
      nodesInv args = true ∧ args ≠ [] := by
  unfold parse_term_list at h
  split at h
  · exact absurd h (by simp)
  · rename_i st₁ heq
    cases h
    exact ⟨(parse_term_good _ _ _ hg heq).1, by intro args hargs; cases hargs⟩
  · rename_i p st₁ heq
    have hpt := parse_term_good _ _ _ hg heq
    have hl := parse_term_list_loop_good [p] st₁ hpt.1
      (by simp [nodesInv, hpt.2 p rfl]) x st' h
    refine ⟨hl.1, ?_⟩
    intro args hargs
    subst hargs
    refine ⟨hl.2 args rfl, ?_⟩
    obtain ⟨tail, ht⟩ := parse_term_list_loop_extends [p] st₁ args st' h
    subst ht
    simp

theorem parse_predicate_good (st : Lexer) (x : Option Node) (st' : Lexer)
    (hg : GoodLexer st) (h : parse_predicate st = .ok (x, st')) :
    GoodLexer st' ∧ ∀ n, x = some n →
      nodeInv n = true ∧ isPredicateNode n = true := by
  unfold parse_predicate at h
  split at h
  · exact absurd h (by simp)
  · rename_i st₁ heq
    cases h
    exact ⟨(parse_atom_good _ _ _ hg heq).1, by intro n hn; cases hn⟩
  · rename_i name st₁ heq
    have hpa := parse_atom_good _ _ _ hg heq
    have hname : good_atom_string name = true := by
      simpa [nodeInv] using hpa.2 _ rfl
    split at h
    · exact absurd h (by simp)
    · rename_i st₂ heq₂
      cases h
      refine ⟨consume_good _ _ _ _ hpa.1 heq₂, ?_⟩
      intro n hn
      cases hn
      simp [nodeInv, nodesInv, isPredicateNode, hname]
    · rename_i st₂ heq₂
      have hg₂ := consume_good _ _ _ _ hpa.1 heq₂
      split at h
      · exact absurd h (by simp)
      · rename_i st₃ heq₃
        cases h
        exact ⟨(parse_term_list_good _ _ _ hg₂ heq₃).1, by intro n hn; cases hn⟩
      · rename_i args st₃ heq₃
        have htl := parse_term_list_good _ _ _ hg₂ heq₃
        split at h
        · exact absurd h (by simp)
        · rename_i st₄ heq₄
          cases h
          refine ⟨expect_good _ _ _ htl.1 heq₄, ?_⟩
          intro n hn
          cases hn
          have := htl.2 args rfl
          simp [nodeInv, isPredicateNode, hname, this.1]
  · rename_i n st₁ hne heq
    cases h
    exact ⟨(parse_atom_good _ _ _ hg heq).1, by intro n hn; cases hn⟩

theorem parse_predicate_list_loop_good (acc : List Node) (st : Lexer) :
    GoodLexer st → nodesInv acc = true →
    ∀ x st', parse_predicate_list_loop acc st = .ok (x, st') →
    GoodLexer st' ∧ ∀ args, x = some args → nodesInv args = true := by
  induction acc, st using parse_predicate_list_loop.induct with
  | case1 acc st e h₁ =>
    intro hg hacc x st' h
    rw [parse_predicate_list_loop, h₁] at h
    exact absurd h (by simp)
  | case2 acc st st₁ h₁ =>
    intro hg hacc x st' h
    rw [parse_predicate_list_loop, h₁] at h
    dsimp only at h
    cases h
    refine ⟨consume_good _ _ _ _ hg h₁, ?_⟩
    intro args hargs
    cases hargs
    exact hacc
  | case3 acc st st₁ h₁ e h₂ =>
    intro hg hacc x st' h
    rw [parse_predicate_list_loop, h₁] at h
    dsimp only at h
    rw [h₂] at h
    exact absurd h (by simp)
  | case4 acc st st₁ h₁ st₂ h₂ =>
    intro hg hacc x st' h
    rw [parse_predicate_list_loop, h₁] at h
    dsimp only at h
    rw [h₂] at h
    dsimp only at h
    cases h
    have hg₁ := consume_good _ _ _ _ hg h₁
    refine ⟨(parse_predicate_good _ _ _ hg₁ h₂).1, ?_⟩
    intro args hargs
    cases hargs
  | case5 acc st st₁ h₁ p st₂ h₂ ih =>
    intro hg hacc x st' h
    rw [parse_predicate_list_loop, h₁] at h
    dsimp only at h
    rw [h₂] at h
    dsimp only at h
    have hg₁ := consume_good _ _ _ _ hg h₁
    have hpt := parse_predicate_good _ _ _ hg₁ h₂
    have hacc' : nodesInv (acc ++ [p]) = true := by
      rw [nodesInv_append]
      simp [hacc, nodesInv, (hpt.2 p rfl).1]
    exact ih hpt.1 hacc' x st' h

theorem parse_predicate_list_loop_extends (acc : List Node) (st : Lexer) :
    ∀ args st', parse_predicate_list_loop acc st = .ok (some args, st') →
    ∃ tail, args = acc ++ tail := by
  induction acc, st using parse_predicate_list_loop.induct with
  | case1 acc st e h₁ =>
    intro args st' h
    rw [parse_predicate_list_loop, h₁] at h
    exact absurd h (by simp)
  | case2 acc st st₁ h₁ =>
    intro args st' h
    rw [parse_predicate_list_loop, h₁] at h
    dsimp only at h
    cases h
    exact ⟨[], by simp⟩
  | case3 acc st st₁ h₁ e h₂ =>
    intro args st' h
    rw [parse_predicate_list_loop, h₁] at h
    dsimp only at h
    rw [h₂] at h
    exact absurd h (by simp)
  | case4 acc st st₁ h₁ st₂ h₂ =>
    intro args st' h
    rw [parse_predicate_list_loop, h₁] at h
    dsimp only at h
    rw [h₂] at h
    exact absurd h (by simp)
  | case5 acc st st₁ h₁ p st₂ h₂ ih =>
    intro args st' h
    rw [parse_predicate_list_loop, h₁] at h
    dsimp only at h
    rw [h₂] at h
    dsimp only at h
    obtain ⟨tail, ht⟩ := ih args st' h
    exact ⟨p :: tail, by simpa using ht⟩

theorem parse_predicate_list_good (st : Lexer) (x : Option (List Node))
    (st' : Lexer) (hg : GoodLexer st)
    (h : parse_predicate_list st = .ok (x, st')) :
    GoodLexer st' ∧ ∀ args, x = some args →
      nodesInv args = true ∧ args ≠ [] := by
  unfold parse_predicate_list at h
  split at h
  · exact absurd h (by simp)
  · rename_i st₁ heq
    cases h
    exact ⟨(parse_predicate_good _ _ _ hg heq).1, by intro args hargs; cases hargs⟩
  · rename_i p st₁ heq
    have hpt := parse_predicate_good _ _ _ hg heq
    have hl := parse_predicate_list_loop_good [p] st₁ hpt.1
      (by simp [nodesInv, (hpt.2 p rfl).1]) x st' h
    refine ⟨hl.1, ?_⟩
    intro args hargs
    subst hargs
    refine ⟨hl.2 args rfl, ?_⟩
    obtain ⟨tail, ht⟩ := parse_predicate_list_loop_extends [p] st₁ args st' h
    subst ht
    simp

theorem parse_clause_good (st : Lexer) (x : Option Node) (st' : Lexer)
    (hg : GoodLexer st) (h : parse_clause st = .ok (x, st')) :
    GoodLexer st' ∧ ∀ n, x = some n → nodeInv n = true := by
  unfold parse_clause at h
  split at h
  · exact absurd h (by simp)
  · rename_i st₁ heq
    cases h
    exact ⟨(parse_predicate_good _ _ _ hg heq).1, by intro n hn; cases hn⟩
  · rename_i left st₁ heq
    have hpp := parse_predicate_good _ _ _ hg heq
    split at h
    · exact absurd h (by simp)
    · rename_i st₂ heq₂
      have hg₂ := consume_good _ _ _ _ hpp.1 heq₂
      split at h
      · exact absurd h (by simp)
      · rename_i right st₃ heq₃
        have hpl := parse_predicate_list_good _ _ _ hg₂ heq₃
        split at h
        · exact absurd h (by simp)
        · rename_i st₄ heq₄
          cases h
          refine ⟨expect_good _ _ _ hpl.1 heq₄, ?_⟩
          intro n hn
          cases hn
          have hr := hpl.2 right rfl
          have hl := hpp.2 left rfl
          simp [nodeInv, hl.1, hl.2, hr.1, hr.2]
      · rename_i st₃ heq₃
        split at h
        · exact absurd h (by simp)
        · exact absurd h (by simp)
    · rename_i st₂ heq₂
      have hg₂ := consume_good _ _ _ _ hpp.1 heq₂
      split at h
      · exact absurd h (by simp)
      · rename_i st₃ heq₃
        cases h
        refine ⟨expect_good _ _ _ hg₂ heq₃, ?_⟩
        intro n hn
        cases hn
        exact (hpp.2 _ rfl).1

/-- Every node list produced by `Parser::parse` from a wellformed lexer
state satisfies the data-model invariant. -/
theorem parse_good (st : Lexer) : GoodLexer st →
    ∀ ns, parse st = .ok ns → nodesInv ns = true := by
  induction st using parse.induct with
  | case1 st e h₁ =>
    intro hg ns h
    rw [parse, h₁] at h
    exact absurd h (by simp)
  | case2 st st₁ h₁ =>
    intro hg ns h
    rw [parse, h₁] at h
    dsimp only at h
    cases h
    rfl
  | case3 st n st₁ h₁ e hp ih =>
    intro hg ns h
    rw [parse, h₁] at h
    dsimp only at h
    rw [hp] at h
    exact absurd h (by simp)
  | case4 st n st₁ h₁ ms hp ih =>
    intro hg ns h
    rw [parse, h₁] at h
    dsimp only at h
    rw [hp] at h
    dsimp only at h
    cases h
    have hpc := parse_clause_good _ _ _ hg h₁
    have := ih hpc.1 ms hp
    simp [nodesInv, hpc.2 n rfl, this]

/-! ### The token stream of a whole input

`impl Iterator for Lexer` repeatedly calls `pop_token`; iteration stops at
the first `none`.  On a fresh lexer this is the same as repeatedly calling
`pop_token_internal` on the remaining input. -/

/-- All tokens of an input, in order (the `Iterator` view of the lexer). -/
def tokenize (l : List Char) : Except Err (List Token) :=
  match h : popTokenInternal l with
  | .error e => .error e
  | .ok (none, _) => .ok []
  | .ok (some t, r) =>
    match tokenize r with
    | .error e => .error e
    | .ok ts => .ok (t :: ts)
termination_by l.length
decreasing_by
  exact popTokenInternal_some_length_lt _ _ _ h

/-! ### Bootstrap clause loading and the session loop

`main` builds the clause database once from the fixed built-in text, then
reads one line at a time: end of input breaks the loop with `Ok(())`;
each line is parsed with `parse_clause`; a parsed query is handed to
`Evaluator::eval`, whose body is `panic!("eval!!")`.  A panic anywhere
(lexing, parsing or evaluating) aborts the process. -/

/-- The embedded built-in fact text (the raw string in
`built_in_clause_list`, including its leading newline and the trailing
indentation of the raw-string literal). -/
def built_in_text : String :=
  "\nred(xff0000).\ngreen(x00ff00).\nblue(x0000ff).\n            "

/-- `built_in_clause_list`: parse the fixed built-in fact text. -/
def built_in_clause_list : Except Err (List Node) :=
  parse (Lexer.new built_in_text)

/-- Everything that can abort the session process: a lexing or parsing
panic, or the unconditional `panic!("eval!!")` of `Evaluator::eval`. -/
inductive SessionAbort where
  | err (e : Err)
  | evalPanic
deriving DecidableEq

/-- `struct Evaluator`: the clause database together with one query. -/
structure Evaluator where
  clause_list : List Node
  query : Node

/-- `Evaluator::eval`: the resolution stub.  Its body is
`panic!("eval!!")`, so it fails unconditionally and never produces a
boolean. -/
def Evaluator.eval (_ : Evaluator) : Except SessionAbort Bool :=
  .error .evalPanic

/-- One iteration of the `main` loop body on one input line: parse the
line as a clause; a parsed query is evaluated (the printing is ignored).
The database that the next iteration will use is returned alongside, to
make the frame property of the loop statable; the loop body never touches
it. -/
def session_step (db : List Node) (line : String) :
    Except SessionAbort (Option Bool × List Node) :=
  match parse_clause (Lexer.new line) with
  | .error e => .error (.err e)
  | .ok (none, _) => .ok (none, db)
  | .ok (some q, _) =>
    match (Evaluator.mk db q).eval with
    | .error a => .error a
    | .ok b => .ok (some b, db)

/-- The `main` read loop over a finite input stream of lines; the empty
list is end of input, which breaks the loop successfully. -/
def run_session_aux (db : List Node) : List String → Except SessionAbort Unit
  | [] => .ok ()
  | line :: rest =>
    match session_step db line with
    | .error a => .error a
    | .ok (_, db') => run_session_aux db' rest

/-- `main`: load the built-in clause database once, then run the read
loop on it. -/
def main_session (lines : List String) : Except SessionAbort Unit :=
  match built_in_clause_list with
  | .error e => .error (.err e)
  | .ok db => run_session_aux db lines

/-! ### Appending a trailing comment

A suffix of the shape `%<no newline>` is invisible to the lexer: it is
skipped entirely, and it cannot extend any maximal munch since `%` belongs
to no token class.  The following simulation shows that a run of the
parser on `l` is reproduced exactly on `l ++ s`. -/

/-- A trailing line comment: a `%` followed by characters that contain no
newline. -/
def CommentSuffix (s : List Char) : Prop :=
  ∃ body, s = '%' :: body ∧ '\n' ∉ body

theorem skipJunkAux_true_no_newline (body : List Char) (h : '\n' ∉ body) :
    skipJunkAux true body = [] := by
  induction body with
  | nil => simp [skipJunkAux]
  | cons c cs ih =>
    have hc : c ≠ '\n' := by intro hc; exact h (by simp [hc])
    rw [skipJunkAux, if_neg (by simpa using hc)]
    exact ih (by intro hm; exact h (by simp [hm]))

theorem skipJunkAux_comment_suffix (s : List Char) (hs : CommentSuffix s)
    (b : Bool) : skipJunkAux b s = [] := by
  obtain ⟨body, rfl, hnl⟩ := hs
  cases b with
  | true =>
    refine skipJunkAux_true_no_newline _ ?_
    intro hm
    rcases List.mem_cons.mp hm with h | h
    · exact absurd h (by decide)
    · exact hnl h
  | false =>
    rw [skipJunkAux, if_neg (by decide), if_pos (by decide)]
    exact skipJunkAux_true_no_newline _ hnl

/-- If the skipping loop stops inside `l`, appending to `l` does not
change where it stops. -/
theorem skipJunkAux_append_of_ne_nil (b : Bool) (l s : List Char)
    (h : skipJunkAux b l ≠ []) :
    skipJunkAux b (l ++ s) = skipJunkAux b l ++ s := by
  induction l generalizing b with
  | nil => simp [skipJunkAux] at h
  | cons c cs ih =>
    cases b with
    | true =>
      by_cases hc : (c == '\n') = true
      · have hr : skipJunkAux true (c :: cs) = skipJunkAux false cs := by
          rw [skipJunkAux, if_pos hc]
        rw [List.cons_append, skipJunkAux, if_pos hc, hr]
        exact ih false (hr ▸ h)
      · have hr : skipJunkAux true (c :: cs) = skipJunkAux true cs := by
          rw [skipJunkAux, if_neg hc]
        rw [List.cons_append, skipJunkAux, if_neg hc, hr]
        exact ih true (hr ▸ h)
    | false =>
      by_cases hc : (c == '\n' || c == ' ') = true
      · have hr : skipJunkAux false (c :: cs) = skipJunkAux false cs := by
          rw [skipJunkAux, if_pos hc]
        rw [List.cons_append, skipJunkAux, if_pos hc, hr]
        exact ih false (hr ▸ h)
      · by_cases hc₂ : (c == '%') = true
        · have hr : skipJunkAux false (c :: cs) = skipJunkAux true cs := by
            rw [skipJunkAux, if_neg hc, if_pos hc₂]
          rw [List.cons_append, skipJunkAux, if_neg hc, if_pos hc₂, hr]
          exact ih true (hr ▸ h)
        · have hr : skipJunkAux false (c :: cs) = c :: cs := by
            rw [skipJunkAux, if_neg hc, if_neg hc₂]
          rw [List.cons_append, skipJunkAux, if_neg hc, if_neg hc₂, hr]
          simp

/-- If the skipping loop exhausts `l`, it also exhausts `l` extended by a
trailing comment. -/
theorem skipJunkAux_append_of_nil (s : List Char) (hs : CommentSuffix s)
    (b : Bool) (l : List Char) (h : skipJunkAux b l = []) :
    skipJunkAux b (l ++ s) = [] := by
  induction l generalizing b with
  | nil => simpa using skipJunkAux_comment_suffix s hs b
  | cons c cs ih =>
    cases b with
    | true =>
      by_cases hc : (c == '\n') = true
      · rw [List.cons_append, skipJunkAux, if_pos hc]
        rw [skipJunkAux, if_pos hc] at h
        exact ih false h
      · rw [List.cons_append, skipJunkAux, if_neg hc]
        rw [skipJunkAux, if_neg hc] at h
        exact ih true h
    | false =>
      by_cases hc : (c == '\n' || c == ' ') = true
      · rw [List.cons_append, skipJunkAux, if_pos hc]
        rw [skipJunkAux, if_pos hc] at h
        exact ih false h
      · by_cases hc₂ : (c == '%') = true
        · rw [List.cons_append, skipJunkAux, if_neg hc, if_pos hc₂]
          rw [skipJunkAux, if_neg hc, if_pos hc₂] at h
          exact ih true h
        · rw [skipJunkAux, if_neg hc, if_neg hc₂] at h
          exact absurd h (by simp)

theorem takeWhile_append_of_neg (p : Char → Bool) (hd : Char)
    (tl : List Char) (hp : p hd = false) (xs : List Char) :
    List.takeWhile p (xs ++ hd :: tl) = List.takeWhile p xs ∧
    List.dropWhile p (xs ++ hd :: tl) = List.dropWhile p xs ++ hd :: tl := by
  induction xs with
  | nil => simp [List.takeWhile_cons, List.dropWhile_cons, hp]
  | cons x xs ih =>
    rw [List.cons_append, List.takeWhile_cons, List.takeWhile_cons,
      List.dropWhile_cons, List.dropWhile_cons]
    cases hx : p x
    · simp
    · simpa using ih

/-- Appending a trailing comment to the input changes the result of
producing one token only by carrying the comment along in the remainder:
a token stays the same token, end of input stays end of input (the
comment is consumed), an error stays the same error. -/
theorem popTokenInternal_append (s : List Char) (hs : CommentSuffix s)
    (l : List Char) :
    (∀ t r, popTokenInternal l = .ok (some t, r) →
      popTokenInternal (l ++ s) = .ok (some t, r ++ s)) ∧
    (∀ r, popTokenInternal l = .ok (none, r) →
      popTokenInternal (l ++ s) = .ok (none, [])) ∧
    (∀ e, popTokenInternal l = .error e →
      popTokenInternal (l ++ s) = .error e) := by
  obtain ⟨body, hbody, hnl⟩ := hs
  have hpct : isAtomChar '%' = false := by decide
  have hpcl : isLowerAZ '%' = false := by decide
  unfold popTokenInternal
  cases hsk : skipJunk l with
  | nil =>
    have hsk' : skipJunk (l ++ s) = [] :=
      skipJunkAux_append_of_nil s ⟨body, hbody, hnl⟩ false l hsk
    rw [hsk']
    refine ⟨?_, ?_, ?_⟩
    · intro t r h
      exact absurd h (by simp [popTokenAt])
    · intro r h
      simp [popTokenAt]
    · intro e h
      exact absurd h (by simp [popTokenAt])
  | cons c cs =>
    have hsk₂ : skipJunkAux false l = c :: cs := hsk
    have hsk' : skipJunk (l ++ s) = c :: (cs ++ s) := by
      show skipJunkAux false (l ++ s) = c :: (cs ++ s)
      rw [skipJunkAux_append_of_ne_nil false l s (by rw [hsk₂]; simp), hsk₂]
      simp
    rw [hsk']
    simp only [popTokenAt]
    by_cases hc₁ : isLowerAZ c = true
    · rw [if_pos hc₁, if_pos hc₁]
      have := takeWhile_append_of_neg isAtomChar '%' body hpct (c :: cs)
      subst hbody
      rw [← List.cons_append, this.1, this.2]
      refine ⟨?_, ?_, ?_⟩
      · intro t r h
        simp only [Except.ok.injEq, Prod.mk.injEq, Option.some.injEq] at h
        obtain ⟨ht, hr⟩ := h
        subst ht
        subst hr
        rfl
      · intro r h
        exact absurd h (by simp)
      · intro e h
        exact absurd h (by simp)
    · rw [if_neg hc₁, if_neg hc₁]
      by_cases hc₂ : isUpperAZ c = true
      · rw [if_pos hc₂, if_pos hc₂]
        have := takeWhile_append_of_neg isLowerAZ '%' body hpcl cs
        subst hbody
        rw [this.1, this.2]
        refine ⟨?_, ?_, ?_⟩
        · intro t r h
          simp only [Except.ok.injEq, Prod.mk.injEq, Option.some.injEq] at h
          obtain ⟨ht, hr⟩ := h
          subst ht
          subst hr
          rfl
        · intro r h
          exact absurd h (by simp)
        · intro e h
          exact absurd h (by simp)
      · rw [if_neg hc₂, if_neg hc₂]
        by_cases hc₃ : (c == '(' || c == ')' || c == ',' || c == '.') = true
        · rw [if_pos hc₃, if_pos hc₃]
          refine ⟨?_, ?_, ?_⟩
          · intro t r h
            simp only [Except.ok.injEq, Prod.mk.injEq, Option.some.injEq] at h
            obtain ⟨ht, hr⟩ := h
            subst ht
            subst hr
            rfl
          · intro r h
            exact absurd h (by simp)
          · intro e h
            exact absurd h (by simp)
        · rw [if_neg hc₃, if_neg hc₃]
          by_cases hc₄ : (c == ':') = true
          · rw [if_pos hc₄, if_pos hc₄]
            cases cs with
            | nil =>
              subst hbody
              refine ⟨?_, ?_, ?_⟩
              · intro t r h
                exact absurd h (by simp)
              · intro r h
                exact absurd h (by simp)
              · intro e h
                simp only at h
                cases h
                simp
            | cons d ds =>
              by_cases hd : d = '-'
              · subst hd
                refine ⟨?_, ?_, ?_⟩
                · intro t r h
                  simp only [List.cons_append] at *
                  simp only [Except.ok.injEq, Prod.mk.injEq, Option.some.injEq] at h
                  obtain ⟨ht, hr⟩ := h
                  subst ht
                  subst hr
                  rfl
                · intro r h
                  exact absurd h (by simp)
                · intro e h
                  exact absurd h (by simp)
              · refine ⟨?_, ?_, ?_⟩
                · intro t r h
                  split at h
                  · rename_i cs' heq
                    injection heq with h₁ h₂
                    exact absurd h₁ hd
                  · exact absurd h (by simp)
                · intro r h
                  split at h
                  · rename_i cs' heq
                    injection heq with h₁ h₂
                    exact absurd h₁ hd
                  · exact absurd h (by simp)
                · intro e h
                  split at h
                  · rename_i cs' heq
                    injection heq with h₁ h₂
                    exact absurd h₁ hd
                  · cases h
                    rw [List.cons_append]
                    split
                    · rename_i cs' heq
                      injection heq with h₁ h₂
                      exact absurd h₁ hd
                    · rfl
          · rw [if_neg hc₄, if_neg hc₄]
            refine ⟨?_, ?_, ?_⟩
            · intro t r h
              exact absurd h (by simp)
            · intro r h
              exact absurd h (by simp)
            · intro e h
              cases h
              rfl

/-- Two lexer states that differ only by a trailing comment appended to
the remaining input (or that have both exhausted their input), with equal
lookahead buffers. -/
def ExtState (s : List Char) (a b : Lexer) : Prop :=
  b.next_token = a.next_token ∧
    (b.input = a.input ++ s ∨ (a.input = [] ∧ b.input = []))

theorem extState_new (s : List Char) (l : List Char) :
    ExtState s ⟨l, none⟩ ⟨l ++ s, none⟩ :=
  ⟨rfl, Or.inl rfl⟩

theorem fill_ext (s : List Char) (hs : CommentSuffix s) (a b a' : Lexer)
    (hab : ExtState s a b) (h : a.fill = .ok a') :
    ∃ b', b.fill = .ok b' ∧ ExtState s a' b' := by
  obtain ⟨hnt, hin⟩ := hab
  unfold Lexer.fill at h ⊢
  cases hn : a.next_token with
  | some t =>
    rw [hn] at h
    cases h
    rw [hnt, hn]
    exact ⟨b, rfl, hnt, hin⟩
  | none =>
    rw [hn] at h
    rw [hnt, hn]
    cases hp : popTokenInternal a.input with
    | error e => rw [hp] at h; exact absurd h (by simp)
    | ok p =>
      obtain ⟨t, rest⟩ := p
      rw [hp] at h
      cases h
      rcases hin with hb | ⟨ha, hb⟩
      · rw [hb]
        cases t with
        | some tok =>
          rw [(popTokenInternal_append s hs a.input).1 tok rest hp]
          exact ⟨⟨rest ++ s, some tok⟩, rfl, rfl, Or.inl rfl⟩
        | none =>
          have hrest : rest = [] := popTokenInternal_none _ _ hp
          rw [(popTokenInternal_append s hs a.input).2.1 rest hp]
          exact ⟨⟨[], none⟩, rfl, rfl, Or.inr ⟨hrest, rfl⟩⟩
      · rw [ha] at hp
        rw [hb, hp]
        have hrest : rest = [] ∧ t = none := by
          have : popTokenInternal ([] : List Char) = .ok (none, []) := rfl
          rw [this] at hp
          cases hp
          exact ⟨rfl, rfl⟩
        obtain ⟨h₁, h₂⟩ := hrest
        subst h₁
        subst h₂
        exact ⟨⟨[], none⟩, rfl, rfl, Or.inr ⟨rfl, rfl⟩⟩

theorem peek_token_ext (s : List Char) (hs : CommentSuffix s)
    (a b : Lexer) (x : Option Token) (a' : Lexer)
    (hab : ExtState s a b) (h : a.peek_token = .ok (x, a')) :
    ∃ b', b.peek_token = .ok (x, b') ∧ ExtState s a' b' := by
  unfold Lexer.peek_token at h ⊢
  cases hf : a.fill with
  | error e => rw [hf] at h; exact absurd h (by simp)
  | ok af =>
    rw [hf] at h
    dsimp only at h
    simp only [Except.ok.injEq, Prod.mk.injEq] at h
    obtain ⟨hx, ha'⟩ := h
    subst ha'
    subst hx
    obtain ⟨bf, hbf, hext⟩ := fill_ext s hs a b af hab hf
    refine ⟨bf, ?_, hext⟩
    rw [hbf]
    dsimp only
    rw [hext.1]

theorem pop_token_ext (s : List Char) (hs : CommentSuffix s)
    (a b : Lexer) (x : Option Token) (a' : Lexer)
    (hab : ExtState s a b) (h : a.pop_token = .ok (x, a')) :
    ∃ b', b.pop_token = .ok (x, b') ∧ ExtState s a' b' := by
  unfold Lexer.pop_token at h ⊢
  cases hf : a.fill with
  | error e => rw [hf] at h; exact absurd h (by simp)
  | ok af =>
    rw [hf] at h
    dsimp only at h
    simp only [Except.ok.injEq, Prod.mk.injEq] at h
    obtain ⟨hx, ha'⟩ := h
    subst ha'
    subst hx
    obtain ⟨bf, hbf, hext⟩ := fill_ext s hs a b af hab hf
    refine ⟨{ bf with next_token := none }, ?_, rfl, by simpa using hext.2⟩
    rw [hbf]
    dsimp only
    rw [hext.1]

theorem consume_ext (s : List Char) (hs : CommentSuffix s)
    (a b : Lexer) (t : Token) (c : Bool) (a' : Lexer)
    (hab : ExtState s a b) (h : a.consume t = .ok (c, a')) :
    ∃ b', b.consume t = .ok (c, b') ∧ ExtState s a' b' := by
  unfold Lexer.consume at h ⊢
  cases hf : a.fill with
  | error e => rw [hf] at h; exact absurd h (by simp)
  | ok af =>
    rw [hf] at h
    dsimp only at h
    obtain ⟨bf, hbf, hext⟩ := fill_ext s hs a b af hab hf
    rw [hbf]
    dsimp only
    by_cases hnt : af.next_token = some t
    · rw [if_pos hnt] at h
      simp only [Except.ok.injEq, Prod.mk.injEq] at h
      obtain ⟨hc, ha'⟩ := h
      subst ha'
      rw [if_pos (by rw [hext.1]; exact hnt)]
      exact ⟨{ bf with next_token := none }, by rw [← hc],
        rfl, by simpa using hext.2⟩
    · rw [if_neg hnt] at h
      simp only [Except.ok.injEq, Prod.mk.injEq] at h
      obtain ⟨hc, ha'⟩ := h
      subst ha'
      rw [if_neg (by rw [hext.1]; exact hnt)]
      exact ⟨bf, by rw [← hc], hext⟩

theorem expect_ext (s : List Char) (hs : CommentSuffix s)
    (a b : Lexer) (t : Token) (a' : Lexer)
    (hab : ExtState s a b) (h : a.expect t = .ok a') :
    ∃ b', b.expect t = .ok b' ∧ ExtState s a' b' := by
  unfold Lexer.expect at h ⊢
  cases hf : a.fill with
  | error e => rw [hf] at h; exact absurd h (by simp)
  | ok af =>
    rw [hf] at h
    dsimp only at h
    obtain ⟨bf, hbf, hext⟩ := fill_ext s hs a b af hab hf
    rw [hbf]
    dsimp only
    by_cases hnt : af.next_token = some t
    · rw [if_pos hnt] at h
      cases h
      rw [if_pos (by rw [hext.1]; exact hnt)]
      exact ⟨{ bf with next_token := none }, rfl,
        rfl, by simpa using hext.2⟩
    · rw [if_neg hnt] at h
      exact absurd h (by simp)

theorem parse_atom_ext (s : List Char) (hs : CommentSuffix s)
    (a b : Lexer) (v : Option Node) (a' : Lexer)
    (hab : ExtState s a b) (h : parse_atom a = .ok (v, a')) :
    ∃ b', parse_atom b = .ok (v, b') ∧ ExtState s a' b' := by
  unfold parse_atom at h ⊢
  split at h
  · exact absurd h (by simp)
  · rename_i str a₁ heq
    split at h
    · exact absurd h (by simp)
    · rename_i u a₂ heq₂
      cases h
      obtain ⟨b₁, hb₁, hext₁⟩ := peek_token_ext s hs a b _ a₁ hab heq
      obtain ⟨b₂, hb₂, hext₂⟩ := pop_token_ext s hs a₁ b₁ u a' hext₁ heq₂
      refine ⟨b₂, ?_, hext₂⟩
      rw [hb₁]
      dsimp only
      rw [hb₂]
  · rename_i t a₁ hne heq
    cases h
    obtain ⟨b₁, hb₁, hext₁⟩ := peek_token_ext s hs a b t a' hab heq
    refine ⟨b₁, ?_, hext₁⟩
    rw [hb₁]
    match t, hne with
    | none, _ => rfl
    | some (.atom str), hne => exact (hne str rfl).elim
    | some (.var str), _ => rfl
    | some (.op str), _ => rfl

theorem parse_term_ext (s : List Char) (hs : CommentSuffix s)
    (a b : Lexer) (v : Option Node) (a' : Lexer)
    (hab : ExtState s a b) (h : parse_term a = .ok (v, a')) :
    ∃ b', parse_term b = .ok (v, b') ∧ ExtState s a' b' := by
  unfold parse_term at h ⊢
  split at h
  · exact absurd h (by simp)
  · rename_i str a₁ heq
    cases h
    obtain ⟨b₁, hb₁, hext₁⟩ := pop_token_ext s hs a b _ a' hab heq
    refine ⟨b₁, ?_, hext₁⟩
    rw [hb₁]
  · rename_i str a₁ heq
    cases h
    obtain ⟨b₁, hb₁, hext₁⟩ := pop_token_ext s hs a b _ a' hab heq
    refine ⟨b₁, ?_, hext₁⟩
    rw [hb₁]
  · exact absurd h (by simp)

theorem parse_term_list_loop_ext (s : List Char) (hs : CommentSuffix s)
    (acc : List Node) (st : Lexer) :
    ∀ b v st', ExtState s st b → parse_term_list_loop acc st = .ok (v, st') →
    ∃ b', parse_term_list_loop acc b = .ok (v, b') ∧ ExtState s st' b' := by
  induction acc, st using parse_term_list_loop.induct with
  | case1 acc st e h₁ =>
    intro b v st' hab h
    rw [parse_term_list_loop, h₁] at h
    exact absurd h (by simp)
  | case2 acc st st₁ h₁ =>
    intro b v st' hab h
    rw [parse_term_list_loop, h₁] at h
    dsimp only at h
    cases h
    obtain ⟨b₁, hb₁, hext₁⟩ := consume_ext s hs st b _ false st₁ hab h₁
    exact ⟨b₁, by rw [parse_term_list_loop, hb₁], hext₁⟩
  | case3 acc st st₁ h₁ e h₂ =>
    intro b v st' hab h
    rw [parse_term_list_loop, h₁] at h
    dsimp only at h
    rw [h₂] at h
    exact absurd h (by simp)
  | case4 acc st st₁ h₁ st₂ h₂ =>
    intro b v st' hab h
    rw [parse_term_list_loop, h₁] at h
    dsimp only at h
    rw [h₂] at h
    dsimp only at h
    cases h
    obtain ⟨b₁, hb₁, hext₁⟩ := consume_ext s hs st b _ true st₁ hab h₁
    obtain ⟨b₂, hb₂, hext₂⟩ := parse_term_ext s hs st₁ b₁ none st₂ hext₁ h₂
    refine ⟨b₂, ?_, hext₂⟩
    rw [parse_term_list_loop, hb₁]
    dsimp only
    rw [hb₂]
  | case5 acc st st₁ h₁ p st₂ h₂ ih =>
    intro b v st' hab h
    rw [parse_term_list_loop, h₁] at h
    dsimp only at h
    rw [h₂] at h
    dsimp only at h
    obtain ⟨b₁, hb₁, hext₁⟩ := consume_ext s hs st b _ true st₁ hab h₁
    obtain ⟨b₂, hb₂, hext₂⟩ := parse_term_ext s hs st₁ b₁ (some p) st₂ hext₁ h₂
    obtain ⟨b₃, hb₃, hext₃⟩ := ih b₂ v st' hext₂ h
    refine ⟨b₃, ?_, hext₃⟩
    rw [parse_term_list_loop, hb₁]
    dsimp only
    rw [hb₂]
    dsimp only
    exact hb₃

theorem parse_term_list_ext (s : List Char) (hs : CommentSuffix s)
    (a b : Lexer) (v : Option (List Node)) (a' : Lexer)
    (hab : ExtState s a b) (h : parse_term_list a = .ok (v, a')) :
    ∃ b', parse_term_list b = .ok (v, b') ∧ ExtState s a' b' := by
  unfold parse_term_list at h ⊢
  split at h
  · exact absurd h (by simp)
  · rename_i a₁ heq
    cases h
    obtain ⟨b₁, hb₁, hext₁⟩ := parse_term_ext s hs a b none a' hab heq
    refine ⟨b₁, ?_, hext₁⟩
    rw [hb₁]
  · rename_i p a₁ heq
    obtain ⟨b₁, hb₁, hext₁⟩ := parse_term_ext s hs a b (some p) a₁ hab heq
    obtain ⟨b₂, hb₂, hext₂⟩ := parse_term_list_loop_ext s hs [p] a₁ b₁ v a' hext₁ h
    refine ⟨b₂, ?_, hext₂⟩
    rw [hb₁]
    dsimp only
    exact hb₂

theorem parse_predicate_ext (s : List Char) (hs : CommentSuffix s)
    (a b : Lexer) (v : Option Node) (a' : Lexer)
    (hab : ExtState s a b) (h : parse_predicate a = .ok (v, a')) :
    ∃ b', parse_predicate b = .ok (v, b') ∧ ExtState s a' b' := by
  unfold parse_predicate at h ⊢
  split at h
  · exact absurd h (by simp)
  · rename_i a₁ heq
    cases h
    obtain ⟨b₁, hb₁, hext₁⟩ := parse_atom_ext s hs a b none a' hab heq
    refine ⟨b₁, ?_, hext₁⟩
    rw [hb₁]
  · rename_i name a₁ heq
    obtain ⟨b₁, hb₁, hext₁⟩ := parse_atom_ext s hs a b _ a₁ hab heq
    split at h
    · exact absurd h (by simp)
    · rename_i a₂ heq₂
      cases h
      obtain ⟨b₂, hb₂, hext₂⟩ := consume_ext s hs a₁ b₁ _ false a' hext₁ heq₂
      refine ⟨b₂, ?_, hext₂⟩
      rw [hb₁]
      dsimp only
      rw [hb₂]
    · rename_i a₂ heq₂
      obtain ⟨b₂, hb₂, hext₂⟩ := consume_ext s hs a₁ b₁ _ true a₂ hext₁ heq₂
      split at h
      · exact absurd h (by simp)
      · rename_i a₃ heq₃
        cases h
        obtain ⟨b₃, hb₃, hext₃⟩ := parse_term_list_ext s hs a₂ b₂ none a' hext₂ heq₃
        refine ⟨b₃, ?_, hext₃⟩
        rw [hb₁]
        dsimp only
        rw [hb₂]
        dsimp only
        rw [hb₃]
      · rename_i args a₃ heq₃
        obtain ⟨b₃, hb₃, hext₃⟩ := parse_term_list_ext s hs a₂ b₂ (some args) a₃ hext₂ heq₃
        split at h
        · exact absurd h (by simp)
        · rename_i a₄ heq₄
          cases h
          obtain ⟨b₄, hb₄, hext₄⟩ := expect_ext s hs a₃ b₃ _ a' hext₃ heq₄
          refine ⟨b₄, ?_, hext₄⟩
          rw [hb₁]
          dsimp only
          rw [hb₂]
          dsimp only
          rw [hb₃]
          dsimp only
          rw [hb₄]
  · rename_i n a₁ hne heq
    cases h
    obtain ⟨b₁, hb₁, hext₁⟩ := parse_atom_ext s hs a b (some n) a' hab heq
    refine ⟨b₁, ?_, hext₁⟩
    rw [hb₁]
    match n, hne with
    | .atom str, hne => exact (hne str rfl).elim
    | .var str, _ => rfl
    | .predicate nm args, _ => rfl
    | .clause l r, _ => rfl
    | .tru, _ => rfl

theorem parse_predicate_list_loop_ext (s : List Char) (hs : CommentSuffix s)
    (acc : List Node) (st : Lexer) :
    ∀ b v st', ExtState s st b →
    parse_predicate_list_loop acc st = .ok (v, st') →
    ∃ b', parse_predicate_list_loop acc b = .ok (v, b') ∧ ExtState s st' b' := by
  induction acc, st using parse_predicate_list_loop.induct with
  | case1 acc st e h₁ =>
    intro b v st' hab h
    rw [parse_predicate_list_loop, h₁] at h
    exact absurd h (by simp)
  | case2 acc st st₁ h₁ =>
    intro b v st' hab h
    rw [parse_predicate_list_loop, h₁] at h
    dsimp only at h
    cases h
    obtain ⟨b₁, hb₁, hext₁⟩ := consume_ext s hs st b _ false st₁ hab h₁
    exact ⟨b₁, by rw [parse_predicate_list_loop, hb₁], hext₁⟩
  | case3 acc st st₁ h₁ e h₂ =>
    intro b v st' hab h
    rw [parse_predicate_list_loop, h₁] at h
    dsimp only at h
    rw [h₂] at h
    exact absurd h (by simp)
  | case4 acc st st₁ h₁ st₂ h₂ =>
    intro b v st' hab h
    rw [parse_predicate_list_loop, h₁] at h
    dsimp only at h
    rw [h₂] at h
    dsimp only at h
    cases h
    obtain ⟨b₁, hb₁, hext₁⟩ := consume_ext s hs st b _ true st₁ hab h₁
    obtain ⟨b₂, hb₂, hext₂⟩ := parse_predicate_ext s hs st₁ b₁ none st₂ hext₁ h₂
    refine ⟨b₂, ?_, hext₂⟩
    rw [parse_predicate_list_loop, hb₁]
    dsimp only
    rw [hb₂]
  | case5 acc st st₁ h₁ p st₂ h₂ ih =>
    intro b v st' hab h
    rw [parse_predicate_list_loop, h₁] at h
    dsimp only at h
    rw [h₂] at h
    dsimp only at h
    obtain ⟨b₁, hb₁, hext₁⟩ := consume_ext s hs st b _ true st₁ hab h₁
    obtain ⟨b₂, hb₂, hext₂⟩ := parse_predicate_ext s hs st₁ b₁ (some p) st₂ hext₁ h₂
    obtain ⟨b₃, hb₃, hext₃⟩ := ih b₂ v st' hext₂ h
    refine ⟨b₃, ?_, hext₃⟩
    rw [parse_predicate_list_loop, hb₁]
    dsimp only
    rw [hb₂]
    dsimp only
    exact hb₃

theorem parse_predicate_list_ext (s : List Char) (hs : CommentSuffix s)
    (a b : Lexer) (v : Option (List Node)) (a' : Lexer)
    (hab : ExtState s a b) (h : parse_predicate_list a = .ok (v, a')) :
    ∃ b', parse_predicate_list b = .ok (v, b') ∧ ExtState s a' b' := by
  unfold parse_predicate_list at h ⊢
  split at h
  · exact absurd h (by simp)
  · rename_i a₁ heq
    cases h
    obtain ⟨b₁, hb₁, hext₁⟩ := parse_predicate_ext s hs a b none a' hab heq
    refine ⟨b₁, ?_, hext₁⟩
    rw [hb₁]
  · rename_i p a₁ heq
    obtain ⟨b₁, hb₁, hext₁⟩ := parse_predicate_ext s hs a b (some p) a₁ hab heq
    obtain ⟨b₂, hb₂, hext₂⟩ := parse_predicate_list_loop_ext s hs [p] a₁ b₁ v a' hext₁ h
    refine ⟨b₂, ?_, hext₂⟩
    rw [hb₁]
    dsimp only
    exact hb₂

/-- A successful `parse_clause` run is reproduced verbatim, with the same
resulting node, when a trailing comment is appended to the input. -/
theorem parse_clause_ext (s : List Char) (hs : CommentSuffix s)
    (a b : Lexer) (v : Option Node) (a' : Lexer)
    (hab : ExtState s a b) (h : parse_clause a = .ok (v, a')) :
    ∃ b', parse_clause b = .ok (v, b') ∧ ExtState s a' b' := by
  unfold parse_clause at h ⊢
  split at h
  · exact absurd h (by simp)
  · rename_i a₁ heq
    cases h
    obtain ⟨b₁, hb₁, hext₁⟩ := parse_predicate_ext s hs a b none a' hab heq
    refine ⟨b₁, ?_, hext₁⟩
    rw [hb₁]
  · rename_i left a₁ heq
    obtain ⟨b₁, hb₁, hext₁⟩ := parse_predicate_ext s hs a b (some left) a₁ hab heq
    split at h
    · exact absurd h (by simp)
    · rename_i a₂ heq₂
      obtain ⟨b₂, hb₂, hext₂⟩ := consume_ext s hs a₁ b₁ _ true a₂ hext₁ heq₂
      split at h
      · exact absurd h (by simp)
      · rename_i right a₃ heq₃
        obtain ⟨b₃, hb₃, hext₃⟩ := parse_predicate_list_ext s hs a₂ b₂ (some right) a₃ hext₂ heq₃
        split at h
        · exact absurd h (by simp)
        · rename_i a₄ heq₄
          cases h
          obtain ⟨b₄, hb₄, hext₄⟩ := expect_ext s hs a₃ b₃ _ a' hext₃ heq₄
          refine ⟨b₄, ?_, hext₄⟩
          rw [hb₁]
          dsimp only
          rw [hb₂]
          dsimp only
          rw [hb₃]
          dsimp only
          rw [hb₄]
      · rename_i a₃ heq₃
        split at h
        · exact absurd h (by simp)
        · exact absurd h (by simp)
    · rename_i a₂ heq₂
      obtain ⟨b₂, hb₂, hext₂⟩ := consume_ext s hs a₁ b₁ _ false a₂ hext₁ heq₂
      split at h
      · exact absurd h (by simp)
      · rename_i a₃ heq₃
        cases h
        obtain ⟨b₃, hb₃, hext₃⟩ := expect_ext s hs a₂ b₂ _ a' hext₂ heq₃
        refine ⟨b₃, ?_, hext₃⟩
        rw [hb₁]
        dsimp only
        rw [hb₂]
        dsimp only
        rw [hb₃]

/-! ### Whole-input tokens of a single lexeme (spec section 8, first item) -/

theorem takeWhile_eq_self_of_all (p : α → Bool) (l : List α)
    (h : ∀ x ∈ l, p x = true) : l.takeWhile p = l := by
  induction l with
  | nil => simp
  | cons a l ih =>
    rw [List.takeWhile_cons, if_pos (h a (by simp))]
    rw [ih (fun x hx => h x (by simp [hx]))]

theorem dropWhile_eq_nil_of_all (p : α → Bool) (l : List α)
    (h : ∀ x ∈ l, p x = true) : l.dropWhile p = [] := by
  induction l with
  | nil => simp
  | cons a l ih =>
    rw [List.dropWhile_cons, if_pos (h a (by simp))]
    exact ih (fun x hx => h x (by simp [hx]))

theorem isLowerAZ_not_junk (c : Char) (hc : isLowerAZ c = true) :
    (c == '\n' || c == ' ') = false ∧ (c == '%') = false := by
  refine ⟨?_, ?_⟩
  · cases h₁ : c == '\n' with
    | true =>
      have : c = '\n' := by simpa using h₁
      subst this
      exact absurd hc (by decide)
    | false =>
      cases h₂ : c == ' ' with
      | true =>
        have : c = ' ' := by simpa using h₂
        subst this
        exact absurd hc (by decide)
      | false => simp [h₁, h₂]
  · cases h₁ : c == '%' with
    | true =>
      have : c = '%' := by simpa using h₁
      subst this
      exact absurd hc (by decide)
    | false => rfl

theorem isUpperAZ_not_junk (c : Char) (hc : isUpperAZ c = true) :
    (c == '\n' || c == ' ') = false ∧ (c == '%') = false := by
  refine ⟨?_, ?_⟩
  · cases h₁ : c == '\n' with
    | true =>
      have : c = '\n' := by simpa using h₁
      subst this
      exact absurd hc (by decide)
    | false =>
      cases h₂ : c == ' ' with
      | true =>
        have : c = ' ' := by simpa using h₂
        subst this
        exact absurd hc (by decide)
      | false => simp [h₁, h₂]
  · cases h₁ : c == '%' with
    | true =>
      have : c = '%' := by simpa using h₁
      subst this
      exact absurd hc (by decide)
    | false => rfl

theorem tokenize_nil : tokenize [] = .ok [] := by
  rw [tokenize, show popTokenInternal [] = .ok (none, []) from rfl]

/-- An input that is exactly one atom lexeme tokenizes to exactly that
one atom token. -/
theorem tokenize_atom (c : Char) (cs : List Char) (hc : isLowerAZ c = true)
    (hcs : ∀ x ∈ cs, isAtomChar x = true) :
    tokenize (c :: cs) = .ok [.atom ⟨c :: cs⟩] := by
  have hnj := isLowerAZ_not_junk c hc
  have hskip : skipJunk (c :: cs) = c :: cs := by
    show skipJunkAux false (c :: cs) = c :: cs
    rw [skipJunkAux, if_neg (by simp [hnj.1]), if_neg (by simp [hnj.2])]
  have hall : ∀ x ∈ c :: cs, isAtomChar x = true := by
    intro x hx
    rcases List.mem_cons.mp hx with h | h
    · subst h
      simp [isAtomChar, hc]
    · exact hcs x h
  have hpop : popTokenInternal (c :: cs) = .ok (some (.atom ⟨c :: cs⟩), []) := by
    unfold popTokenInternal
    rw [hskip]
    simp only [popTokenAt]
    rw [if_pos hc, takeWhile_eq_self_of_all _ _ hall, dropWhile_eq_nil_of_all _ _ hall]
  rw [tokenize, hpop]
  dsimp only
  rw [tokenize_nil]

/-- An input that is exactly one variable lexeme tokenizes to exactly
that one variable token. -/
theorem tokenize_var (c : Char) (cs : List Char) (hc : isUpperAZ c = true)
    (hcs : ∀ x ∈ cs, isLowerAZ x = true) :
    tokenize (c :: cs) = .ok [.var ⟨c :: cs⟩] := by
  have hnj := isUpperAZ_not_junk c hc
  have hskip : skipJunk (c :: cs) = c :: cs := by
    show skipJunkAux false (c :: cs) = c :: cs
    rw [skipJunkAux, if_neg (by simp [hnj.1]), if_neg (by simp [hnj.2])]
  have hlow : isLowerAZ c = false := by
    cases h : isLowerAZ c with
    | false => rfl
    | true =>
      have h₁ : 'a' ≤ c ∧ c ≤ 'z' := by simpa [isLowerAZ] using h
      have h₂ : 'A' ≤ c ∧ c ≤ 'Z' := by simpa [isUpperAZ] using hc
      obtain ⟨ha, -⟩ := h₁
      obtain ⟨-, hz⟩ := h₂
      exact absurd (le_trans ha hz) (by decide)
  have hpop : popTokenInternal (c :: cs) = .ok (some (.var ⟨c :: cs⟩), []) := by
    unfold popTokenInternal
    rw [hskip]
    simp only [popTokenAt]
    rw [if_neg (by simp [hlow]), if_pos hc,
      takeWhile_eq_self_of_all _ _ hcs, dropWhile_eq_nil_of_all _ _ hcs]
  rw [tokenize, hpop]
  dsimp only
  rw [tokenize_nil]

/-! ### Lines that the lexer skips entirely -/

theorem fill_junk (l : List Char) (h : skipJunk l = []) :
    Lexer.fill ⟨l, none⟩ = .ok ⟨[], none⟩ := by
  unfold Lexer.fill
  dsimp only
  unfold popTokenInternal
  rw [h]
  rfl

theorem parse_clause_junk (l : List Char) (h : skipJunk l = []) :
    parse_clause ⟨l, none⟩ = .ok (none, ⟨[], none⟩) := by
  have hpk : Lexer.peek_token ⟨l, none⟩ = .ok (none, ⟨[], none⟩) := by
    unfold Lexer.peek_token
    rw [fill_junk l h]
  have hpa : parse_atom ⟨l, none⟩ = .ok (none, ⟨[], none⟩) := by
    unfold parse_atom
    rw [hpk]
  have hpp : parse_predicate ⟨l, none⟩ = .ok (none, ⟨[], none⟩) := by
    unfold parse_predicate
    rw [hpa]
  unfold parse_clause
  rw [hpp]

theorem parse_junk (l : List Char) (h : skipJunk l = []) :
    parse ⟨l, none⟩ = .ok [] := by
  rw [parse, parse_clause_junk l h]

/-! ### Session-loop lemmas -/

/-- The loop body never modifies the clause database. -/
theorem session_step_frame (db : List Node) (line : String)
    (out : Option Bool × List Node) (h : session_step db line = .ok out) :
    out.2 = db := by
  unfold session_step at h
  split at h
  · exact absurd h (by simp)
  · cases h
    rfl
  · split at h
    · exact absurd h (by simp)
    · rename_i b heval
      exact absurd heval (by simp [Evaluator.eval])

/-- A session whose every line parses to "no match" runs to the end of
input and terminates cleanly. -/
theorem run_session_aux_ok (db : List Node) (lines : List String)
    (h : ∀ line ∈ lines, ∃ st, parse_clause (Lexer.new line) = .ok (none, st)) :
    run_session_aux db lines = .ok () := by
  induction lines generalizing db with
  | nil => rfl
  | cons line rest ih =>
    obtain ⟨st, hst⟩ := h line (by simp)
    have hss : session_step db line = .ok (none, db) := by
      unfold session_step
      rw [hst]
    unfold run_session_aux
    rw [hss]
    exact ih db (fun l hl => h l (by simp [hl]))

/-- A session aborts with the evaluation panic at its first line that
parses to a query, regardless of what follows. -/
theorem run_session_aux_eval_panic (db : List Node) (pre : List String)
    (line : String) (rest : List String) (q : Node) (st : Lexer)
    (hpre : ∀ l ∈ pre, ∃ st', parse_clause (Lexer.new l) = .ok (none, st'))
    (hline : parse_clause (Lexer.new line) = .ok (some q, st)) :
    run_session_aux db (pre ++ line :: rest) = .error .evalPanic := by
  induction pre generalizing db with
  | nil =>
    have hss : session_step db line = .error .evalPanic := by
      unfold session_step
      rw [hline]
      rfl
    rw [List.nil_append]
    unfold run_session_aux
    rw [hss]
  | cons p ps ih =>
    obtain ⟨st', hst'⟩ := hpre p (by simp)
    have hss : session_step db p = .ok (none, db) := by
      unfold session_step
      rw [hst']
    rw [List.cons_append]
    unfold run_session_aux
    rw [hss]
    exact ih db (fun l hl => hpre l (by simp [hl]))

/-! ### The claims

The looping definitions are made reducible here so that the concrete
instances below compute by `rfl`. -/

unseal parse_term_list_loop parse_predicate_list_loop parse tokenize

/-- Claim C1: every Node tree returned by the parser satisfies the
data-model invariants: every Clause head is a Predicate with a non-empty
body list, every Predicate name and Atom text is non-empty and matches
`[a-z][a-z0-9]*`, every Variable text is non-empty, starts uppercase and
has a lowercase remainder (all of which is `nodesInv`); and every
parenthesized argument list (a successful `parse_term_list`) has at least
one element. -/
theorem claim_C1 :
    (∀ (input : List Char) (ns : List Node),
      parse ⟨input, none⟩ = .ok ns → nodesInv ns = true) ∧
    (∀ (input : List Char) (n : Node) (st' : Lexer),
      parse_clause ⟨input, none⟩ = .ok (some n, st') → nodeInv n = true) ∧
    (∀ (st : Lexer) (args : List Node) (st' : Lexer),
      parse_term_list st = .ok (some args, st') → args ≠ []) := by
  refine ⟨?_, ?_, ?_⟩
  · intro input ns h
    exact parse_good ⟨input, none⟩ (by intro t ht; simp at ht) ns h
  · intro input n st' h
    exact (parse_clause_good ⟨input, none⟩ (some n) st'
      (by intro t ht; simp at ht) h).2 n rfl
  · intro st args st' h
    unfold parse_term_list at h
    split at h
    · exact absurd h (by simp)
    · exact absurd h (by simp)
    · rename_i p st₁ heq
      obtain ⟨tail, ht⟩ := parse_term_list_loop_extends [p] st₁ args st' h
      subst ht
      simp

theorem claim_C1_witness :
    nodesInv [Node.predicate ("cat") []] = true ∧
    nodeInv (Node.predicate ("eq") [Node.atom ("a")]) = true ∧
    [Node.atom ("a")] ≠ ([] : List Node) :=
  ⟨claim_C1.1 ("cat.".data) [Node.predicate ("cat") []] (by rfl),
   claim_C1.2.1 ("eq(a).".data) (Node.predicate ("eq") [Node.atom ("a")])
     ⟨[], none⟩ (by rfl),
   claim_C1.2.2 (Lexer.new ("a")) [Node.atom ("a")] ⟨[], none⟩ (by rfl)⟩

/-- Claim C2: parsing `cat :- .` raises a ParseError (the
`panic!("Expected predicate but got ...")` site of `parse_clause`,
observing the `.` token); it yields no Node. -/
theorem claim_C2 :
    parse_clause (Lexer.new ("cat :- .")) =
      .error (.parse (.expectedPredicate (some (.op ("."))))) := rfl

/-- Claim C3, code behavior: a lexical or parse failure in one input line
aborts the whole session (the `panic!` propagates out of the loop), even
when further input lines follow; the session does not resume with the
next line as the claim demands. -/
theorem claim_C3_code_behavior :
    main_session [(":x"), ("cat.")] = .error (.err (.lex .expectedDash)) ∧
    main_session [("&"), ("cat.")] =
      .error (.err (.lex (.unexpectedChar '&'))) ∧
    main_session [("cat"), ("dog.")] =
      .error (.err (.parse (.expectedToken (.op ("."))))) :=
  ⟨rfl, rfl, rfl⟩

/-- Claim C4: an input that as a whole matches `[a-z][a-z0-9]*` tokenizes
to exactly one Atom token carrying exactly that text; an input matching
`[A-Z][a-z]*` tokenizes to exactly one Variable token. -/
theorem claim_C4 :
    (∀ (c : Char) (cs : List Char), isLowerAZ c = true →
      (∀ x ∈ cs, isAtomChar x = true) →
      tokenize (c :: cs) = .ok [.atom ⟨c :: cs⟩]) ∧
    (∀ (c : Char) (cs : List Char), isUpperAZ c = true →
      (∀ x ∈ cs, isLowerAZ x = true) →
      tokenize (c :: cs) = .ok [.var ⟨c :: cs⟩]) :=
  ⟨tokenize_atom, tokenize_var⟩

theorem claim_C4_witness :
    tokenize ("c4t".data) = .ok [.atom ("c4t")] ∧
    tokenize ("Xy".data) = .ok [.var ("Xy")] :=
  ⟨claim_C4.1 'c' ['4', 't'] (by decide) (by decide),
   claim_C4.2 'X' ['y'] (by decide) (by decide)⟩

/-- Claim C5: tokenizing `daughter(X, Y) :- father(Y, X), female(X).`
yields exactly the nineteen listed tokens in order. -/
theorem claim_C5 :
    tokenize ("daughter(X, Y) :- father(Y, X), female(X).".data) =
      .ok [.atom ("daughter"), .op ("("), .var ("X"), .op (","),
           .var ("Y"), .op (")"), .op (":-"), .atom ("father"),
           .op ("("), .var ("Y"), .op (","), .var ("X"), .op (")"),
           .op (","), .atom ("female"), .op ("("), .var ("X"),
           .op (")"), .op (".")] := rfl

/-- Claim C6: parsing `add(X, e, X).` yields exactly the predicate
`add` with the argument sequence `X, e, X` in source order; the two
occurrences of `X` stay two separate entries. -/
theorem claim_C6 :
    parse (Lexer.new ("add(X, e, X).")) =
      .ok [.predicate ("add") [.var ("X"), .atom ("e"), .var ("X")]] := rfl

/-- Claim C7: appending a trailing `%` comment to a line that parses to a
clause yields the same parse result; a comment-only line parses to "no
match" (and `parse` returns no clauses), not an error. -/
theorem claim_C7 :
    ∀ (line body : List Char), '\n' ∉ body →
    ((∀ (n : Node) (st : Lexer),
        parse_clause ⟨line, none⟩ = .ok (some n, st) →
        ∃ st', parse_clause ⟨line ++ '%' :: body, none⟩ = .ok (some n, st')) ∧
     (∃ st, parse_clause ⟨'%' :: body, none⟩ = .ok (none, st)) ∧
     parse ⟨'%' :: body, none⟩ = .ok []) := by
  intro line body hnl
  have hcs : CommentSuffix ('%' :: body) := ⟨body, rfl, hnl⟩
  have hjunk : skipJunk ('%' :: body) = [] :=
    skipJunkAux_comment_suffix ('%' :: body) hcs false
  refine ⟨?_, ?_, ?_⟩
  · intro n st h
    obtain ⟨b', hb', -⟩ := parse_clause_ext ('%' :: body) hcs
      ⟨line, none⟩ ⟨line ++ '%' :: body, none⟩ (some n) st
      (extState_new _ _) h
    exact ⟨b', hb'⟩
  · exact ⟨⟨[], none⟩, parse_clause_junk _ hjunk⟩
  · exact parse_junk _ hjunk

theorem claim_C7_witness :
    (∃ st', parse_clause ⟨("cat.".data ++ '%' :: " hi".data : List Char), none⟩ =
      .ok (some (.predicate ("cat") []), st')) ∧
    (∃ st, parse_clause ⟨('%' :: " hi".data : List Char), none⟩ = .ok (none, st)) ∧
    parse ⟨('%' :: " hi".data : List Char), none⟩ = .ok [] := by
  have h := claim_C7 ("cat.".data) (" hi".data) (by decide)
  exact ⟨h.1 (.predicate ("cat") []) ⟨[], none⟩ (by rfl), h.2.1, h.2.2⟩

/-- Claim C8: the clause database is exactly the result of parsing the
fixed built-in fact text (the three color facts); the session-loop body
never changes the database it is given (so nothing is added, removed,
reordered, or merged in during a session); and a whole session run is the
read loop over that one bootstrap database. -/
theorem claim_C8 :
    built_in_clause_list =
      .ok [.predicate ("red") [.atom ("xff0000")],
           .predicate ("green") [.atom ("x00ff00")],
           .predicate ("blue") [.atom ("x0000ff")]] ∧
    (∀ (db : List Node) (line : String) (out : Option Bool × List Node),
      session_step db line = .ok out → out.2 = db) ∧
    (∀ lines, main_session lines =
      run_session_aux
        [.predicate ("red") [.atom ("xff0000")],
         .predicate ("green") [.atom ("x00ff00")],
         .predicate ("blue") [.atom ("x0000ff")]] lines) := by
  refine ⟨rfl, session_step_frame, ?_⟩
  intro lines
  unfold main_session
  rw [show built_in_clause_list =
    .ok [.predicate ("red") [.atom ("xff0000")],
         .predicate ("green") [.atom ("x00ff00")],
         .predicate ("blue") [.atom ("x0000ff")]] from rfl]

theorem claim_C8_witness :
    ((none, [Node.atom ("a")]) : Option Bool × List Node).2 = [Node.atom ("a")] ∧
    main_session [] =
      run_session_aux
        [.predicate ("red") [.atom ("xff0000")],
         .predicate ("green") [.atom ("x00ff00")],
         .predicate ("blue") [.atom ("x0000ff")]] [] :=
  ⟨claim_C8.2.1 [Node.atom ("a")] ("% q") (none, [Node.atom ("a")]) (by rfl),
   claim_C8.2.2 []⟩

/-- Claim C9: end of the input stream terminates the session loop
normally: immediately with no input at all, and after any prefix of
lines the loop survives (lines parsing to "no match"). -/
theorem claim_C9 :
    main_session [] = .ok () ∧
    ∀ (lines : List String),
      (∀ line ∈ lines, ∃ st, parse_clause (Lexer.new line) = .ok (none, st)) →
      main_session lines = .ok () := by
  refine ⟨rfl, ?_⟩
  intro lines h
  unfold main_session
  rw [show built_in_clause_list =
    .ok [.predicate ("red") [.atom ("xff0000")],
         .predicate ("green") [.atom ("x00ff00")],
         .predicate ("blue") [.atom ("x0000ff")]] from rfl]
  exact run_session_aux_ok _ lines h

theorem claim_C9_witness : main_session [("% c")] = .ok () :=
  claim_C9.2 [("% c")] (by
    intro l hl
    rw [List.mem_singleton] at hl
    subst hl
    exact ⟨⟨[], none⟩, by rfl⟩)

/-- Claim C10: the resolution stub fails unconditionally for every
database and query and never returns a boolean; consequently a session
aborts with that panic at its first line that parses to a query, instead
of printing a result and reading further lines. -/
theorem claim_C10 :
    (∀ ev : Evaluator, ev.eval = .error .evalPanic) ∧
    (∀ (db : List Node) (pre : List String) (line : String)
       (rest : List String) (q : Node) (st : Lexer),
      (∀ l ∈ pre, ∃ st', parse_clause (Lexer.new l) = .ok (none, st')) →
      parse_clause (Lexer.new line) = .ok (some q, st) →
      run_session_aux db (pre ++ line :: rest) = .error .evalPanic) :=
  ⟨fun _ => rfl, run_session_aux_eval_panic⟩

theorem claim_C10_witness :
    run_session_aux [] ([("% c")] ++ ("cat.") :: [("dog.")]) =
      .error .evalPanic :=
  claim_C10.2 [] [("% c")] ("cat.") [("dog.")] (.predicate ("cat") [])
    ⟨[], none⟩
    (by
      intro l hl
      rw [List.mem_singleton] at hl
      subst hl
      exact ⟨⟨[], none⟩, by rfl⟩)
    (by rfl)

end Prologium
